import Mathlib

/-!
# reshifter: discovery, key/path codec, restore

A shallow embedding of `pkg/discovery/discovery.go` and `pkg/restore/restore.go`
together with the parts of the Go standard library they call
(`strings.Replace`, `strings.HasPrefix`, `path/filepath.Clean/Join/Rel/Dir/Walk`).
The write path of the backup (`store`), whose source file is not at hand, is
modelled from the specification and marked as such.

Conventions.
* A Go `string` is a `List Char` (`Str`).
* A Go `error` is an `Option Str`: `none` is `nil`, `some msg` is an error whose
  message is `msg` (`fmt.Errorf` is string concatenation).
* Everything outside the repository (the network, the etcd server, the file
  system, the process environment) is an explicit value passed to the function;
  every function returns, next to its Go results, the list of the effects it
  performed, in order.
-/

namespace Reshifter

/-- A Go string. -/
abbrev Str := List Char

/-- A Go `error`: `none` is `nil`. -/
abbrev GoError := Option Str

/-- Go `strings.HasPrefix(s, p)`. -/
def HasPrefix (s p : Str) : Bool := p.isPrefixOf s

/-! ## Constants of package `types` -/

/-- The constants of package `types` used by the code. The package is not among
the sources, so its values are parameters of the embedding. -/
structure Types where
  EscapeColon : Str
  ContentFile : Str
  KubernetesPrefix : Str
  OpenShiftPrefix : Str

/-- Go `types.KubernetesDistro`. -/
inductive KubernetesDistro
  | NotADistro
  | Vanilla
  | OpenShift
  deriving DecidableEq, Repr

/-- Go `types.EtcdResponse`, the decoded body of `/version`. -/
structure EtcdResponse where
  EtcdServerVersion : Str
  deriving DecidableEq, Repr

/-- Go `client.PrevExistType`. -/
inductive PrevExistType
  | PrevIgnore
  | PrevExist
  | PrevNoExist
  deriving DecidableEq, Repr

/-- Go `client.SetOptions` (the fields the code sets). -/
structure SetOptions where
  Dir : Bool
  PrevExist : PrevExistType
  deriving DecidableEq, Repr

/-! ## Effects -/

/-- The observable effects of the code, in the order they are performed. -/
inductive Event
  | certFromEnv
  | loadX509KeyPair (cert key : Str)
  | httpGet (url : Str)
  | tlsGet (url : Str)
  | newClient2 (endpoint : Str) (secure : Bool)
  | newClient3 (endpoint : Str) (secure : Bool)
  | get2 (key : Str)
  | get3 (key : Str)
  | close3
  | unarchive (afile target : Str)
  | readFile (path : Str) (ok : Bool)
  | set (key value : Str) (o : SetOptions) (ok : Bool)
  deriving DecidableEq, Repr

/-- The event opens an etcd client. -/
def Event.isClientOpen : Event → Bool
  | .newClient2 _ _ => true
  | .newClient3 _ _ => true
  | _ => false

/-- The event is a write to the etcd endpoint. -/
def Event.isWrite : Event → Bool
  | .set _ _ _ _ => true
  | _ => false

/-- The event is a version query over plain HTTP. -/
def Event.isPlainQuery : Event → Bool
  | .httpGet _ => true
  | _ => false

/-- The event belongs to the secure path: reading the certificate
configuration, loading the key pair, or a query over the TLS transport. -/
def Event.isSecurePath : Event → Bool
  | .certFromEnv => true
  | .loadX509KeyPair _ _ => true
  | .tlsGet _ => true
  | _ => false

/-! ## The collaborators of package `discovery` -/

/-- The fields of a parsed `*url.URL` the code reads. -/
structure Url where
  Scheme : Str
  text : Str

/-- What the code of `discovery` calls outside the repository sources:
`url.Parse`, `util.ClientCertAndKeyFromEnv`, `tls.LoadX509KeyPair`, `http.Get`,
`(*http.Client).Get` over the TLS transport, the JSON decoder, the two client
constructors of `util` and the `Get` of each client. -/
structure Net where
  urlParse : Str → Except Str Url
  clientCertAndKeyFromEnv : Except Str (Str × Str)
  loadX509KeyPair : Str → Str → Except Str Str
  httpGet : Str → Except Str Str
  tlsGet : Str → Str → Except Str Str
  jsonDecode : Str → Except Str EtcdResponse
  newClient2 : Str → Bool → GoError
  newClient3 : Str → Bool → GoError
  get2 : Str → Bool → Str → GoError
  get3 : Str → Bool → Str → GoError

/-! ## `discovery.go` -/

/-- Go `getVersion` (discovery.go, 90-102). -/
def getVersion (net : Net) (endpoint : Str) : (Str × GoError) × List Event :=
  match net.httpGet endpoint with
  | .error err =>
    (([], some ("Can't query ".toList ++ endpoint ++ " endpoint: ".toList ++ err)),
      [Event.httpGet endpoint])
  | .ok body =>
    match net.jsonDecode body with
    | .error err =>
      (([], some ("Can't decode response from etcd: ".toList ++ err)), [Event.httpGet endpoint])
    | .ok etcdr => ((etcdr.EtcdServerVersion, none), [Event.httpGet endpoint])

/-- Go `getVersionSecure` (discovery.go, 104-126). -/
def getVersionSecure (net : Net) (endpoint clientcert clientkey : Str) :
    (Str × GoError) × List Event :=
  match net.loadX509KeyPair clientcert clientkey with
  | .error err => (([], some err), [Event.loadX509KeyPair clientcert clientkey])
  | .ok cert =>
    match net.tlsGet cert endpoint with
    | .error err =>
      (([], some ("Can't query ".toList ++ endpoint ++ " endpoint: ".toList ++ err)),
        [Event.loadX509KeyPair clientcert clientkey, Event.tlsGet endpoint])
    | .ok body =>
      match net.jsonDecode body with
      | .error err =>
        (([], some ("Can't decode response from etcd: ".toList ++ err)),
          [Event.loadX509KeyPair clientcert clientkey, Event.tlsGet endpoint])
      | .ok etcdr =>
        ((etcdr.EtcdServerVersion, none),
          [Event.loadX509KeyPair clientcert clientkey, Event.tlsGet endpoint])

/-- Go `ProbeEtcd` (discovery.go, 23-44): the version, the secure flag and the
error, with the effects performed. -/
def ProbeEtcd (net : Net) (endpoint : Str) : (Str × Bool × GoError) × List Event :=
  match net.urlParse (endpoint ++ "/version".toList) with
  | .error err =>
    (([], false, some ("Can't parse endpoint ".toList ++ endpoint ++ ": ".toList ++ err)), [])
  | .ok u =>
    if u.Scheme = "https".toList then
      match net.clientCertAndKeyFromEnv with
      | .error err => (([], false, some err), [Event.certFromEnv])
      | .ok (clientcert, clientkey) =>
        match getVersionSecure net u.text clientcert clientkey with
        | ((_, some verr), evs) => (([], false, some verr), Event.certFromEnv :: evs)
        | ((version, none), evs) => ((version, true, none), Event.certFromEnv :: evs)
    else
      match getVersion net u.text with
      | ((_, some verr), evs) => (([], false, some verr), evs)
      | ((version, none), evs) => ((version, false, none), evs)

/-- Go `ProbeKubernetesDistro` (discovery.go, 48-88). The deferred `c3.Close()`
runs at every return that follows the successful opening of the etcd3 client. -/
def ProbeKubernetesDistro (net : Net) (ty : Types) (endpoint : Str) :
    (KubernetesDistro × GoError) × List Event :=
  match ProbeEtcd net endpoint with
  | ((_, _, some err), evs) =>
    ((.NotADistro,
        some ("Can't understand endpoint ".toList ++ endpoint ++ ": ".toList ++ err)), evs)
  | ((version, secure, none), evs) =>
    if HasPrefix version "3".toList then
      match net.newClient3 endpoint secure with
      | some cerr =>
        ((.NotADistro, some ("Can't connect to etcd: ".toList ++ cerr)),
          evs ++ [Event.newClient3 endpoint secure])
      | none =>
        match net.get3 endpoint secure ty.KubernetesPrefix with
        | some _ =>
          ((.NotADistro, none),
            evs ++ [Event.newClient3 endpoint secure, Event.get3 ty.KubernetesPrefix,
              Event.close3])
        | none =>
          match net.get3 endpoint secure ty.OpenShiftPrefix with
          | some _ =>
            ((.Vanilla, none),
              evs ++ [Event.newClient3 endpoint secure, Event.get3 ty.KubernetesPrefix,
                Event.get3 ty.OpenShiftPrefix, Event.close3])
          | none =>
            ((.OpenShift, none),
              evs ++ [Event.newClient3 endpoint secure, Event.get3 ty.KubernetesPrefix,
                Event.get3 ty.OpenShiftPrefix, Event.close3])
    else if HasPrefix version "2".toList then
      match net.newClient2 endpoint secure with
      | some cerr =>
        ((.NotADistro, some ("Can't connect to etcd: ".toList ++ cerr)),
          evs ++ [Event.newClient2 endpoint secure])
      | none =>
        match net.get2 endpoint secure ty.KubernetesPrefix with
        | some _ =>
          ((.NotADistro, none),
            evs ++ [Event.newClient2 endpoint secure, Event.get2 ty.KubernetesPrefix])
        | none =>
          match net.get2 endpoint secure ty.OpenShiftPrefix with
          | some _ =>
            ((.Vanilla, none),
              evs ++ [Event.newClient2 endpoint secure, Event.get2 ty.KubernetesPrefix,
                Event.get2 ty.OpenShiftPrefix])
          | none =>
            ((.OpenShift, none),
              evs ++ [Event.newClient2 endpoint secure, Event.get2 ty.KubernetesPrefix,
                Event.get2 ty.OpenShiftPrefix])
    else
      ((.NotADistro, some "Can't determine Kubernetes distro".toList), evs)

/-! ## `strings` and `path/filepath` (Unix) -/

/-- The scan of Go `strings.Replace(s, old, new, -1)` for a non-empty `old`:
the leftmost occurrence of `old` is replaced and the scan resumes after it.
The first argument counts the characters of a matched `old` still to skip. -/
def replaceFrom (old new : Str) : Nat → Str → Str
  | _, [] => []
  | skip + 1, _ :: t => replaceFrom old new skip t
  | 0, c :: t =>
    if old.isPrefixOf (c :: t) then new ++ replaceFrom old new (old.length - 1) t
    else c :: replaceFrom old new 0 t

/-- Go `strings.Replace(s, old, new, -1)`. With an empty `old`, `new` is
inserted before every character and at the end. -/
def Replace (s old new : Str) : Str :=
  if old = [] then new ++ s.flatMap (fun c => c :: new)
  else replaceFrom old new 0 s

/-- Go `strings.Split(s, "/")`. -/
def splitSep : Str → List Str
  | [] => [[]]
  | c :: cs =>
    if c = '/' then [] :: splitSep cs
    else
      match splitSep cs with
      | [] => [[c]]
      | s :: ss => (c :: s) :: ss

/-- Go `strings.Join(elems, "/")`. -/
def joinSep : List Str → Str
  | [] => []
  | [s] => s
  | s :: t :: ts => s ++ '/' :: joinSep (t :: ts)

/-- One element of a path processed by `filepath.Clean`; `stack` holds the
elements kept so far, the last one first. Empty and `.` elements are dropped, a
`..` removes the element before it, is dropped at the root of a rooted path and
is kept at the start of a relative one. -/
def cleanStep (rooted : Bool) (stack : List Str) (seg : Str) : List Str :=
  if seg = [] ∨ seg = ['.'] then stack
  else if seg = ['.', '.'] then
    match stack with
    | [] => if rooted then [] else [seg]
    | top :: rest => if top = ['.', '.'] then seg :: stack else rest
  else seg :: stack

/-- The elements of the cleaned form of a path. -/
def cleanElems (rooted : Bool) (p : Str) : List Str :=
  ((splitSep p).foldl (cleanStep rooted) []).reverse

/-- Go `filepath.Clean` on Unix. -/
def Clean (p : Str) : Str :=
  if p = [] then ['.']
  else
    let rooted := p.head? = some '/'
    let out := (if rooted then ['/'] else []) ++ joinSep (cleanElems rooted p)
    if out = [] then ['.'] else out

/-- Go `filepath.Join` on Unix: the elements from the first non-empty one on
are joined by the separator and cleaned. -/
def Join : List Str → Str
  | [] => []
  | e :: es => if e = [] then Join es else Clean (joinSep (e :: es))

/-- The non-empty elements of a path. -/
def pathElems (p : Str) : List Str := (splitSep p).filter (fun s => s ≠ [])

/-- The elements of `base` and `targ` after their common leading elements. -/
def stripCommon : List Str → List Str → List Str × List Str
  | b :: bs, t :: ts => if b = t then stripCommon bs ts else (b :: bs, t :: ts)
  | bs, ts => (bs, ts)

/-- Go `filepath.Rel` on Unix, on the elements of the two cleaned paths: the
common leading elements are dropped, one `..` is emitted for each element left
of the base, then the elements left of the target; a target that cleans to `.`
adds no element. -/
def Rel (basepath targpath : Str) : Except Str Str :=
  let base := Clean basepath
  let targ := Clean targpath
  if targ = base then .ok ['.']
  else
    let base := if base = ['.'] then [] else base
    if (base.head? = some '/') ≠ (targ.head? = some '/') then
      .error ("Rel: can't make ".toList ++ targpath ++ " relative to ".toList ++ basepath)
    else
      match stripCommon (pathElems base) (pathElems targ) with
      | (bs, ts) =>
        if bs.head? = some ['.', '.'] then
          .error ("Rel: can't make ".toList ++ targpath ++ " relative to ".toList ++ basepath)
        else .ok (joinSep (bs.map (fun _ => ['.', '.']) ++ (if targ = ['.'] then [] else ts)))

/-- The path up to and including its last separator. -/
def dirPart (path : Str) : Str := (path.reverse.dropWhile (fun c => c ≠ '/')).reverse

/-- Go `filepath.Dir` on Unix: the last element is dropped and the rest is
cleaned. -/
def Dir (path : Str) : Str := Clean (dirPart path)

/-- Go `filepath.Abs` on Unix, given the result of `os.Getwd`. The callers in
this repository ignore its error, so only the string is returned (the empty
string when `Getwd` fails). -/
def Abs (getwd : Except Str Str) (path : Str) : Str :=
  if path.head? = some '/' then Clean path
  else
    match getwd with
    | .error _ => []
    | .ok wd => Join [wd, path]

/-! ## The file tree walked by `Restore` -/

/-- An entry of the unpacked tree, as `filepath.Walk` and `ioutil.ReadFile` see
it: a non-directory with its name and the result of reading it; a directory
with its name, the error of listing it (if any) and its entries in the order
`Walk` visits them; or a name that a directory lists and `os.Lstat` fails on,
with the error. -/
inductive Entry
  | file (name : Str) (read : Except Str Str)
  | dir (name : Str) (listErr : GoError) (children : List Entry)
  | unstatable (name : Str) (err : Str)

/-- Go `os.FileInfo.Name()`; for an entry without file info, the listed name. -/
def Entry.Name : Entry → Str
  | .file name _ => name
  | .dir name _ _ => name
  | .unstatable name _ => name

/-- Go `os.FileInfo.IsDir()`. -/
def Entry.IsDir : Entry → Bool
  | .file _ _ => false
  | .dir _ _ _ => true
  | .unstatable _ _ => false

/-- Go `ioutil.ReadFile` of the entry; reading a directory fails, and so does
reading what cannot be stat-ed. -/
def Entry.ReadFile (path : Str) : Entry → Except Str Str
  | .file _ read => read
  | .dir _ _ _ => .error ("read ".toList ++ path ++ ": is a directory".toList)
  | .unstatable _ err => .error err

mutual
/-- Every entry the walk reaches has file info: a directory that cannot be
listed hides its entries. -/
def Entry.statable : Entry → Bool
  | .file _ _ => true
  | .dir _ (some _) _ => true
  | .dir _ none children => statableAll children
  | .unstatable _ _ => false
/-- `Entry.statable` for the entries of a directory. -/
def statableAll : List Entry → Bool
  | [] => true
  | e :: es => e.statable && statableAll es
end

/-- Go `filepath.SkipDir`. -/
def SkipDir : Str := "skip this directory".toList

/-- How a call of the walk function, or a walk, ends: it returns an error
(possibly nil) or the goroutine panics. -/
inductive WalkEnd
  | returned (err : GoError)
  | panicked
  deriving DecidableEq, Repr

/-- The result of a walk function or of a walk: the state reached and how the
call ended. -/
abbrev WalkResult (ω : Type) := ω × WalkEnd

/-- Go `filepath.WalkFunc`, threading the state `ω` that the closure captures.
The file info is `none` when `Walk` passes a nil `os.FileInfo`. -/
abbrev WalkFunc (ω : Type) := Str → Option Entry → GoError → ω → WalkResult ω

mutual
/-- Go `filepath.walk` (as of Go 1.16): the directory is listed, the walk
function is called on the entry with the listing error, and if both succeeded
the entries are walked in order. An entry without file info is only ever passed
to the walk function, with a nil file info and the error of `os.Lstat`. -/
def walk {ω : Type} (walkFn : WalkFunc ω) (path : Str) (info : Entry) (st : ω) : WalkResult ω :=
  match info with
  | .file _ _ => walkFn path (some info) none st
  | .unstatable _ err => walkFn path none (some err) st
  | .dir _ listErr children =>
    match walkFn path (some info) listErr st with
    | (st1, .panicked) => (st1, .panicked)
    | (st1, .returned err1) =>
      if listErr.isSome ∨ err1.isSome then (st1, .returned err1)
      else walkNames walkFn path children st1
/-- The loop of `filepath.walk` over the names a directory lists, each joined
to the path of the directory. When `os.Lstat` fails on a name, the walk function
is called with a nil file info and that error, and an error it returns, other
than `SkipDir`, ends the loop; otherwise the entry is walked, and an error, other
than `SkipDir` on a directory, ends the loop. -/
def walkNames {ω : Type} (walkFn : WalkFunc ω) (path : Str) (names : List Entry) (st : ω) :
    WalkResult ω :=
  match names with
  | [] => (st, .returned none)
  | .unstatable name err :: es =>
    match walkFn (Join [path, name]) none (some err) st with
    | (st1, .panicked) => (st1, .panicked)
    | (st1, .returned none) => walkNames walkFn path es st1
    | (st1, .returned (some werr)) =>
      if werr ≠ SkipDir then (st1, .returned (some werr))
      else walkNames walkFn path es st1
  | .file name read :: es =>
    match walk walkFn (Join [path, name]) (.file name read) st with
    | (st1, .panicked) => (st1, .panicked)
    | (st1, .returned none) => walkNames walkFn path es st1
    | (st1, .returned (some err)) => (st1, .returned (some err))
  | .dir name listErr children :: es =>
    match walk walkFn (Join [path, name]) (.dir name listErr children) st with
    | (st1, .panicked) => (st1, .panicked)
    | (st1, .returned none) => walkNames walkFn path es st1
    | (st1, .returned (some err)) =>
      if err ≠ SkipDir then (st1, .returned (some err))
      else walkNames walkFn path es st1
end

/-- Go `filepath.Walk`: `lstat` is the result of `os.Lstat(root)`. When it is an
error the walk function is called once, with a nil file info and that error. -/
def Walk {ω : Type} (lstat : Except Str Entry) (root : Str) (fn : WalkFunc ω) (st : ω) :
    WalkResult ω :=
  let r :=
    match lstat with
    | .error err => fn root none (some err) st
    | .ok info => walk fn root info st
  match r with
  | (st1, .panicked) => (st1, .panicked)
  | (st1, .returned err) =>
    if err = some SkipDir then (st1, .returned none) else (st1, .returned err)

/-! ## `restore.go` -/

/-- The etcd2 keys API as `Restore` uses it: `Set` returns its error and the
state of the endpoint after the call. `Get` observes the value stored under a
key; the code never calls it, it serves to state what a restore leaves behind. -/
structure KeysAPI (σ : Type) where
  Set : σ → Str → Str → SetOptions → GoError × σ
  Get : σ → Str → Option Str

/-- What `Restore` calls on the local machine: `zip.UnarchiveFile` and
`os.Getwd`, and what the walk finds once the archive is unpacked: `lstat path`
is the result of `os.Lstat(path)` together with the tree beneath the path. -/
structure Disk where
  unarchiveFile : Str → Str → GoError
  getwd : Except Str Str
  lstat : Str → Except Str Entry

/-- How a call of `Restore` ends. The count is a Go `int`; it is a natural
number here, a tree of `2^63` entries being out of reach. -/
inductive Outcome
  | returned (numrestored : Nat) (err : GoError)
  | panicked
  deriving DecidableEq, Repr

/-- The variables captured by the walk function of `Restore` and the effects
performed so far: `numrestored`, `err` (restore.go, 41), the endpoint. -/
structure RestoreState (σ : Type) where
  numrestored : Nat
  err : GoError
  server : σ
  events : List Event

/-- The key the walk function derives from a path (restore.go, 50-53). The
error of `filepath.Rel` is ignored, the key is then built from the empty
string. `sentinel` tells whether the entry is named `types.ContentFile`. -/
def toKey (ty : Types) (target path : Str) (sentinel : Bool) : Str :=
  let key := match Rel target path with
    | .ok rel => rel
    | .error _ => []
  let key := '/' :: Replace key ty.EscapeColon [':']
  if sentinel then Dir key else key

/-- The options of the create issued by `Restore` (restore.go, 59). -/
def createOptions : SetOptions := { Dir := false, PrevExist := .PrevNoExist }

/-- The walk function of `Restore` (restore.go, 48-69). `f.Name()` is evaluated
first, for the debug line, and panics on a nil `os.FileInfo`. Every other path
returns nil, whatever the error `e` passed in. -/
def restoreFn {σ : Type} (kapi : KeysAPI σ) (ty : Types) (target : Str) :
    WalkFunc (RestoreState σ) :=
  fun path f _e st =>
    match f with
    | none => (st, .panicked)
    | some info =>
      if info.Name = ty.ContentFile then
        let key := toKey ty target path true
        match info.ReadFile path with
        | .error _ =>
          ({ st with events := st.events ++ [Event.readFile path false] }, .returned none)
        | .ok c =>
          match kapi.Set st.server key c createOptions with
          | (some err, server) =>
            ({ st with
                err := some err
                server := server
                events := st.events ++
                  [Event.readFile path true, Event.set key c createOptions false] },
              .returned none)
          | (none, server) =>
            ({ numrestored := st.numrestored + 1
               err := none
               server := server
               events := st.events ++
                 [Event.readFile path true, Event.set key c createOptions true] },
              .returned none)
      else (st, .returned none)

/-- Go `unarch` (restore.go, 78-87). -/
def unarch (disk : Disk) (afile target : Str) : GoError :=
  match disk.unarchiveFile afile target with
  | some err => some ("Can't unpack archive: ".toList ++ err)
  | none => none

/-- Go `Restore` (restore.go, 26-75): the outcome, the endpoint after the call
and the effects performed, from the endpoint state `server`. A panic of the walk
function ends the call with the endpoint as the creates issued so far left it. -/
def Restore {σ : Type} (net : Net) (disk : Disk) (kapi : KeysAPI σ) (ty : Types)
    (afile target endpoint : Str) (server : σ) : Outcome × σ × List Event :=
  let zipfile := Join [target, afile] ++ ".zip".toList
  match unarch disk zipfile target with
  | some err => (.returned 0 (some err), server, [Event.unarchive zipfile target])
  | none =>
    let root := Abs disk.getwd (Join [target, afile, ['/']])
    match ProbeEtcd net endpoint with
    | ((_, _, some err), evs) =>
      (.returned 0
          (some ("Can't understand endpoint ".toList ++ endpoint ++ ": ".toList ++ err)),
        server, Event.unarchive zipfile target :: evs)
    | ((version, secure, none), evs) =>
      if HasPrefix version "3".toList then
        (.returned 0
            (some ("Endpoint version ".toList ++ version ++ ".x not supported".toList)),
          server, Event.unarchive zipfile target :: evs)
      else if HasPrefix version "2".toList then
        match net.newClient2 endpoint secure with
        | some err =>
          (.returned 0 (some ("Can't connect to etcd: ".toList ++ err)), server,
            Event.unarchive zipfile target :: evs ++ [Event.newClient2 endpoint secure])
        | none =>
          let st0 : RestoreState σ :=
            { numrestored := 0, err := none, server := server,
              events := Event.unarchive zipfile target :: evs ++
                [Event.newClient2 endpoint secure] }
          match Walk (disk.lstat root) root (restoreFn kapi ty root) st0 with
          | (st, .panicked) => (.panicked, st.server, st.events)
          | (st, .returned (some err)) =>
            (.returned 0
                (some ("Can't traverse directory ".toList ++ root ++ ": ".toList ++ err)),
              st.server, st.events)
          | (st, .returned none) => (.returned st.numrestored none, st.server, st.events)
      else (.returned 0 none, server, Event.unarchive zipfile target :: evs)

/-! ## What a restore is expected to do, entry by entry -/

mutual
/-- The entries on which `Walk` calls the walk function, each with its path, in
the order of the calls: an entry, then, for a directory that could be listed,
what is beneath it. -/
def visited (path : Str) : Entry → List (Str × Entry)
  | .file name read => [(path, .file name read)]
  | .unstatable name err => [(path, .unstatable name err)]
  | .dir name listErr children =>
    (path, .dir name listErr children) ::
      (match listErr with
       | some _ => []
       | none => visitedNames path children)
/-- The entries visited beneath a directory. -/
def visitedNames (path : Str) : List Entry → List (Str × Entry)
  | [] => []
  | e :: es => visited (Join [path, e.Name]) e ++ visitedNames path es
end

/-- The creates due for a list of visited entries: one for each entry named
`types.ContentFile` whose content could be read, with the derived key and the
content. -/
def dueCreates (ty : Types) (target : Str) (vs : List (Str × Entry)) : List (Str × Str) :=
  vs.filterMap fun pe =>
    if pe.2.Name = ty.ContentFile then
      match pe.2.ReadFile pe.1 with
      | .ok c => some (toKey ty target pe.1 true, c)
      | .error _ => none
    else none

/-- The creates issued one after the other on the endpoint: for each one whether
it succeeded, and the endpoint at the end. -/
def issueCreates {σ : Type} (kapi : KeysAPI σ) : σ → List (Str × Str) → List Bool × σ
  | s, [] => ([], s)
  | s, kv :: rest =>
    let r := kapi.Set s kv.1 kv.2 createOptions
    let rs := issueCreates kapi r.2 rest
    (r.1.isNone :: rs.1, rs.2)

/-- The event is a create that succeeded. -/
def Event.isOkSet : Event → Bool
  | .set _ _ _ ok => ok
  | _ => false

/-- The event is a create for the key `k` that succeeded, or a write issued with
other options than must-not-exist and non-directory. -/
def Event.violates (k : Str) : Event → Bool
  | .set key _ o ok => (key = k ∧ ok) ∨ o ≠ createOptions
  | _ => false

/-- An endpoint that honours the must-not-already-exist create: such a create
fails on a key that holds a value, and no such create, failed or not, changes
the value an existing key holds. -/
def HonoursPrevNoExist {σ : Type} (kapi : KeysAPI σ) : Prop :=
  (∀ s key v value, kapi.Get s key = some v →
      (kapi.Set s key value createOptions).1 ≠ none) ∧
  (∀ s k v key value, kapi.Get s k = some v →
      kapi.Get (kapi.Set s key value createOptions).2 k = some v)

/-! ## A model of the etcd2 store behind the keys API -/

/-- A node of the keyspace: a value or a directory. -/
inductive Node
  | value (v : Str)
  | directory
  deriving DecidableEq, Repr

/-- The keyspace: the nodes by their cleaned key; the first binding of a key is
the current one. The root directory is implicit. -/
abbrev Keyspace := List (Str × Node)

/-- The keys of the directories above a cleaned key, the root left out. -/
def parentKeys (nodePath : Str) : List Str :=
  (((pathElems nodePath).inits.drop 1).dropLast).map (fun es => '/' :: joinSep es)

/-- The keyspace with the directories of `dirs` that are missing. -/
def mkdirs (ks : Keyspace) : List Str → Keyspace
  | [] => ks
  | d :: ds => mkdirs (if (ks.lookup d).isSome then ks else (d, Node.directory) :: ks) ds

/-- The etcd2 store on a write through the keys API: the key is cleaned, the
root is read-only, a value cannot have nodes beneath it, `PrevNoExist` refuses
an existing node, `PrevExist` a missing one, and a directory is not overwritten;
otherwise the node is written and its missing parent directories created. -/
def etcd2Set (ks : Keyspace) (key value : Str) (o : SetOptions) : GoError × Keyspace :=
  let nodePath := Join [['/'], key]
  let node := if o.Dir then Node.directory else Node.value value
  if nodePath = ['/'] then (some "Root is read only".toList, ks)
  else if (parentKeys nodePath).any (fun d => (ks.lookup d).any (fun n => n ≠ Node.directory))
  then (some "Not a directory".toList, ks)
  else
    match ks.lookup nodePath, o.PrevExist with
    | some _, .PrevNoExist => (some "Key already exists".toList, ks)
    | none, .PrevExist => (some "Key not found".toList, ks)
    | some .directory, _ => (some "Not a file".toList, ks)
    | _, _ => (none, (nodePath, node) :: mkdirs ks (parentKeys nodePath))

/-- The value the store holds under a key. -/
def etcd2Get (ks : Keyspace) (key : Str) : Option Str :=
  match ks.lookup (Join [['/'], key]) with
  | some (.value v) => some v
  | _ => none

/-- The etcd2 store as a keys API. -/
def etcd2 : KeysAPI Keyspace := { Set := etcd2Set, Get := etcd2Get }

/-- The state `st2` is the state `st` after the creates due for the visited
entries `vs` were issued in order: the count grew by the number of creates that
succeeded, and the endpoint is the one they leave. -/
def Advanced {σ : Type} (kapi : KeysAPI σ) (ty : Types) (target : Str)
    (st : RestoreState σ) (vs : List (Str × Entry)) (st2 : RestoreState σ) : Prop :=
  st2.numrestored =
      st.numrestored + ((issueCreates kapi st.server (dueCreates ty target vs)).1.count true) ∧
    st2.server = (issueCreates kapi st.server (dueCreates ty target vs)).2

/-- What `Restore` maintains for a key `k` that held the value `v` before the
call: the key still holds it, every write so far was a must-not-exist create of
a value and none for `k` succeeded, and the count is the number of creates that
succeeded. -/
def Kept {σ : Type} (kapi : KeysAPI σ) (k v : Str) (st : RestoreState σ) : Prop :=
  kapi.Get st.server k = some v ∧ (∀ ev ∈ st.events, ev.violates k = false) ∧
    st.numrestored = st.events.countP Event.isOkSet

/-! ## Sample inputs -/

/-- Sample values for the constants of package `types`. -/
def sampleTypes : Types :=
  { EscapeColon := "ESC_COLON".toList
    ContentFile := "content".toList
    KubernetesPrefix := "/registry".toList
    OpenShiftPrefix := "/openshift.io".toList }

/-- Sample collaborators of `discovery`: the scheme of a URL is what precedes
its first colon, in lower case, the environment names a key pair that loads, the endpoint
answers over both transports with a body that decodes to `version`, both
clients open, and the reads of the Kubernetes and of the OpenShift prefix
return `kube` and `openshift`. -/
def sampleNet (version : Str) (kube openshift : GoError) : Net :=
  { urlParse := fun s =>
      .ok { Scheme := (s.takeWhile (fun c => c ≠ ':')).map Char.toLower, text := s }
    clientCertAndKeyFromEnv := .ok ("cert.pem".toList, "key.pem".toList)
    loadX509KeyPair := fun cert _ => .ok cert
    httpGet := fun _ => .ok version
    tlsGet := fun _ _ => .ok version
    jsonDecode := fun body => .ok { EtcdServerVersion := body }
    newClient2 := fun _ _ => none
    newClient3 := fun _ _ => none
    get2 := fun _ _ key => if key = "/registry".toList then kube else openshift
    get3 := fun _ _ key => if key = "/registry".toList then kube else openshift }

/-- A sample disk: every archive unpacks, the working directory is the root and
`tree` is found at every path. -/
def sampleDisk (tree : Except Str Entry) : Disk :=
  { unarchiveFile := fun _ _ => none
    getwd := .ok ['/']
    lstat := fun _ => tree }

/-- The unpacked backup of a keyspace holding `/foo = some` and
`/that/here = moar`. -/
def sampleTree : Entry :=
  .dir "1498055655".toList none
    [ .dir "foo".toList none [.file "content".toList (.ok "some".toList)],
      .dir "that".toList none
        [.dir "here".toList none [.file "content".toList (.ok "moar".toList)]] ]

/-- The same backup, where the directory `that` lists the name `here` and
`os.Lstat` fails on it. -/
def brokenTree : Entry :=
  .dir "1498055655".toList none
    [ .dir "foo".toList none [.file "content".toList (.ok "some".toList)],
      .dir "that".toList none [.unstatable "here".toList "permission denied".toList] ]

/-- A tree whose root directory cannot be listed. -/
def unreadableTree : Entry :=
  .dir "1498055655".toList (some "permission denied".toList)
    [.dir "foo".toList none [.file "content".toList (.ok "some".toList)]]

/-! ## The key/path codec -/

/-- Go `strings.Contains(s, sub)`. -/
def Contains (s sub : Str) : Bool := s.tails.any (fun t => sub.isPrefixOf t)

/-- Modelled from the spec: `toPath` of the KeyPathCodec (spec 4.3; the function
`store` of backup.go that performs it is not among the sources). The key is
split on `/`, every `:` of each segment is replaced by the placeholder, and the
segments are joined under the base directory. -/
def toPath (ty : Types) (base key : Str) : Str :=
  Join (base :: (splitSep key).map (fun seg => Replace seg [':'] ty.EscapeColon))

/-- The sentinel content file of a mirror directory. -/
def sentinelFile (ty : Types) (dir : Str) : Str := Join [dir, ty.ContentFile]

/-- No proper non-empty prefix of the string is also a suffix of it. -/
def unbordered (p : Str) : Bool :=
  (List.range p.length).all (fun n => n = 0 ∨ p.take n ≠ p.drop (p.length - n))

/-- A path in the form `filepath.Clean` gives an absolute path. -/
def cleanAbs (p : Str) : Prop := p.head? = some '/' ∧ Clean p = p

/-- A file name: not empty, without separator, neither `.` nor `..`. -/
def fileName (s : Str) : Prop := s ≠ [] ∧ '/' ∉ s ∧ s ≠ ['.'] ∧ s ≠ ['.', '.']

/-- The replacement of every `:` by the placeholder `p`, character by character. -/
def escStr (p : Str) (s : Str) : Str := s.flatMap (fun c => if c = ':' then p else [c])

/-- Every element of the list is a file name. -/
def goodElems (l : List Str) : Prop := ∀ s ∈ l, fileName s

/-- Neither `.` nor `..`. -/
def plain (s : Str) : Prop := s ≠ ['.'] ∧ s ≠ ['.', '.']

/-! ## The single-key write path of the backup -/

/-- A node of the local file system: a file with its content, or a directory. -/
inductive FsNode
  | file (content : Str)
  | dir
  deriving DecidableEq, Repr

/-- The local file system as the write path uses it: the nodes by their path
(the first binding of a path is the current one; the root and the working
directory exist) and the paths at which the system refuses to create a node. -/
structure FileSystem where
  nodes : List (Str × FsNode)
  denied : Str → Bool

/-- Go `ioutil.ReadFile` on the file system. -/
def FileSystem.ReadFile (fs : FileSystem) (path : Str) : Except Str Str :=
  match fs.nodes.lookup path with
  | some (.file c) => .ok c
  | some .dir => .error ("read ".toList ++ path ++ ": is a directory".toList)
  | none => .error ("open ".toList ++ path ++ ": no such file or directory".toList)

/-- The directories from the top down to `p`, `p` itself last. -/
def dirChain (p : Str) : List Str :=
  ((pathElems p).inits.drop 1).map
    (fun es => (if p.head? = some '/' then ['/'] else []) ++ joinSep es)

/-- The loop of Go `os.MkdirAll` down a chain of directories: a directory that
exists is kept, a file in the way or a refusal is an error, a missing directory
is created. -/
def mkdirChain (fs : FileSystem) : List Str → Except Str FileSystem
  | [] => .ok fs
  | d :: ds =>
    match fs.nodes.lookup d with
    | some .dir => mkdirChain fs ds
    | some (.file _) => .error ("mkdir ".toList ++ d ++ ": not a directory".toList)
    | none =>
      if fs.denied d then .error ("mkdir ".toList ++ d ++ ": permission denied".toList)
      else mkdirChain { fs with nodes := (d, FsNode.dir) :: fs.nodes } ds

/-- Go `os.MkdirAll`. -/
def FileSystem.MkdirAll (fs : FileSystem) (path : Str) : Except Str FileSystem :=
  mkdirChain fs (dirChain path)

/-- The directory exists: the root, the working directory, or a directory node. -/
def FileSystem.isDir (fs : FileSystem) (path : Str) : Bool :=
  path = ['/'] ∨ path = ['.'] ∨ fs.nodes.lookup path = some FsNode.dir

/-- Go `os.Create` followed by `WriteString`: the file is created or truncated
and holds the value; a directory at the path, a missing parent directory or a
refusal is an error. -/
def FileSystem.WriteFile (fs : FileSystem) (path value : Str) : Except Str FileSystem :=
  match fs.nodes.lookup path with
  | some .dir => .error ("open ".toList ++ path ++ ": is a directory".toList)
  | _ =>
    if fs.isDir (Dir path) = false then
      .error ("open ".toList ++ path ++ ": no such file or directory".toList)
    else if fs.denied path then
      .error ("open ".toList ++ path ++ ": permission denied".toList)
    else .ok { fs with nodes := (path, FsNode.file value) :: fs.nodes }

/-- Modelled from the spec: `store`, the single-key write path of the backup
(spec 4.3, 4.4 and 8; backup.go is not among the sources). An empty key, or a
key the codec rejects, returns an error and writes nothing; otherwise the
mirror directory of the key is created with its parents and the value is
written into the sentinel content file inside it, whose path is returned; a
storage failure is returned as the error. `rejected` stands for the keys
"consisting only of illegal/unrecognized characters", which the spec leaves
open. -/
def store (ty : Types) (rejected : Str → Bool) (fs : FileSystem) (based key val : Str) :
    (Str × GoError) × FileSystem :=
  if key = [] ∨ rejected key = true then (([], some "Path has to be non-empty".toList), fs)
  else
    match fs.MkdirAll (toPath ty based key) with
    | .error err => (([], some err), fs)
    | .ok fs1 =>
      match fs1.WriteFile (sentinelFile ty (toPath ty based key)) val with
      | .error err => (([], some err), fs1)
      | .ok fs2 => ((sentinelFile ty (toPath ty based key), none), fs2)

/-- An empty file system that refuses nothing. -/
def emptyFs : FileSystem := { nodes := [], denied := fun _ => false }

/-- A sample of the keys the codec rejects: those that do not start with the
separator. -/
def sampleRejected (key : Str) : Bool := key.head? ≠ some '/'

/-! ## Properties of `discovery.go` -/

/-- The probe neither opens an etcd client nor writes to the endpoint. -/
theorem ProbeEtcd_events (net : Net) (endpoint : Str) :
    ∀ ev ∈ (ProbeEtcd net endpoint).2,
      ev.isClientOpen = false ∧ ev.isWrite = false ∧ ev.isOkSet = false ∧
        ∀ k, ev.violates k = false := by
  unfold ProbeEtcd getVersionSecure getVersion
  cases hp : net.urlParse (endpoint ++ "/version".toList) with
  | error e => simp
  | ok u =>
    by_cases hs : u.Scheme = "https".toList
    · simp only [hs, if_true]
      cases hc : net.clientCertAndKeyFromEnv with
      | error e => simp [Event.isClientOpen, Event.isWrite, Event.isOkSet, Event.violates]
      | ok ck =>
        obtain ⟨cert, key⟩ := ck
        cases hl : net.loadX509KeyPair cert key with
        | error e => simp [hl, Event.isClientOpen, Event.isWrite, Event.isOkSet, Event.violates]
        | ok c =>
          cases ht : net.tlsGet c u.text with
          | error e =>
            simp [hl, ht, Event.isClientOpen, Event.isWrite, Event.isOkSet, Event.violates]
          | ok body =>
            cases hd : net.jsonDecode body <;>
              simp [hl, ht, hd, Event.isClientOpen, Event.isWrite, Event.isOkSet, Event.violates]
    · simp only [hs, if_false]
      cases ht : net.httpGet u.text with
      | error e => simp [ht, Event.isClientOpen, Event.isWrite, Event.isOkSet, Event.violates]
      | ok body =>
        cases hd : net.jsonDecode body <;>
          simp [ht, hd, Event.isClientOpen, Event.isWrite, Event.isOkSet, Event.violates]

/-- C8: `ProbeEtcd` chooses the transport from the scheme of the parsed URL alone.
When it returns no error, the URL parsed, the secure flag is true exactly when
the scheme is `https`, and every step of the path the scheme selects succeeded
(so a failure of any step of that path yields an error); with a scheme other
than `https` no step of the secure path is performed, with `https` no plain HTTP
query is; and whenever an error is returned the version is empty and the flag
false. -/
theorem ProbeEtcd_transport_by_scheme (net : Net) (endpoint : Str) :
    (∀ version secure, (ProbeEtcd net endpoint).1 = (version, secure, none) →
      ∃ u body etcdr, net.urlParse (endpoint ++ "/version".toList) = .ok u ∧
        (secure = true ↔ u.Scheme = "https".toList) ∧
        net.jsonDecode body = .ok etcdr ∧ version = etcdr.EtcdServerVersion ∧
        (if u.Scheme = "https".toList then
          ∃ cert key c, net.clientCertAndKeyFromEnv = .ok (cert, key) ∧
            net.loadX509KeyPair cert key = .ok c ∧ net.tlsGet c u.text = .ok body
         else net.httpGet u.text = .ok body)) ∧
    (∀ u, net.urlParse (endpoint ++ "/version".toList) = .ok u →
      (u.Scheme ≠ "https".toList →
        ∀ ev ∈ (ProbeEtcd net endpoint).2, ev.isSecurePath = false) ∧
      (u.Scheme = "https".toList →
        ∀ ev ∈ (ProbeEtcd net endpoint).2, ev.isPlainQuery = false)) ∧
    (∀ version secure err, (ProbeEtcd net endpoint).1 = (version, secure, some err) →
      version = [] ∧ secure = false) := by
  unfold ProbeEtcd getVersionSecure getVersion
  cases hp : net.urlParse (endpoint ++ "/version".toList) with
  | error e => simp
  | ok u =>
    by_cases hs : u.Scheme = "https".toList
    · have hs1 : u.Scheme = ['h', 't', 't', 'p', 's'] := hs
      simp only [hs, if_true]
      cases hc : net.clientCertAndKeyFromEnv with
      | error e => simp [Event.isPlainQuery, hs1]
      | ok ck =>
        obtain ⟨cert, key⟩ := ck
        cases hl : net.loadX509KeyPair cert key with
        | error e => simp [hl, Event.isPlainQuery, hs1]
        | ok c =>
          cases ht : net.tlsGet c u.text with
          | error e => simp [hl, ht, Event.isPlainQuery, hs1]
          | ok body =>
            cases hd : net.jsonDecode body with
            | error e => simp [hl, ht, hd, Event.isPlainQuery, hs1]
            | ok r =>
              simp only [hl, ht, hd, Event.isPlainQuery]
              refine ⟨?_, ?_, ?_⟩
              · intro version secure h
                simp at h
                exact ⟨u, body, r, rfl, by simp [← h.2, hs1], hd, h.1.symm, by
                  rw [if_pos hs]; exact ⟨cert, key, c, rfl, hl, ht⟩⟩
              · intro u1 h1
                cases h1
                simp [hs1]
              · simp
    · have hs1 : ¬ u.Scheme = ['h', 't', 't', 'p', 's'] := hs
      simp only [hs, if_false]
      cases ht : net.httpGet u.text with
      | error e => simp [ht, Event.isSecurePath, hs1]
      | ok body =>
        cases hd : net.jsonDecode body with
        | error e => simp [ht, hd, Event.isSecurePath, hs1]
        | ok r =>
          simp only [ht, hd, Event.isSecurePath]
          refine ⟨?_, ?_, ?_⟩
          · intro version secure h
            simp at h
            exact ⟨u, body, r, rfl, by simp [h.2, hs1], hd, h.1.symm, by
              rw [if_neg hs]; exact ht⟩
          · intro u1 h1
            cases h1
            simp [hs1]
          · simp


/-! ## Properties of `restore.go` -/

theorem issueCreates_append {σ : Type} (kapi : KeysAPI σ) (s : σ) (a b : List (Str × Str)) :
    issueCreates kapi s (a ++ b) =
      ((issueCreates kapi s a).1 ++ (issueCreates kapi (issueCreates kapi s a).2 b).1,
        (issueCreates kapi (issueCreates kapi s a).2 b).2) := by
  induction a generalizing s with
  | nil => simp [issueCreates]
  | cons kv rest ih => simp [issueCreates, ih]

theorem dueCreates_append (ty : Types) (target : Str) (a b : List (Str × Entry)) :
    dueCreates ty target (a ++ b) = dueCreates ty target a ++ dueCreates ty target b := by
  simp [dueCreates, List.filterMap_append]

theorem Advanced_nil {σ : Type} (kapi : KeysAPI σ) (ty : Types) (target : Str)
    (st : RestoreState σ) : Advanced kapi ty target st [] st := by
  simp [Advanced, dueCreates, issueCreates]

theorem Advanced_append {σ : Type} (kapi : KeysAPI σ) (ty : Types) (target : Str)
    (st st1 st2 : RestoreState σ) (a b : List (Str × Entry))
    (h1 : Advanced kapi ty target st a st1) (h2 : Advanced kapi ty target st1 b st2) :
    Advanced kapi ty target st (a ++ b) st2 := by
  obtain ⟨h1n, h1s⟩ := h1
  obtain ⟨h2n, h2s⟩ := h2
  constructor
  · rw [dueCreates_append, issueCreates_append, h2n, h1n, h1s]
    simp [List.count_append, Nat.add_assoc]
  · rw [dueCreates_append, issueCreates_append, h2s, h1s]


/-- One call of the walk function on an entry that has file info: it does not
panic, returns no error, and issues the create due for the entry. -/
theorem restoreFn_step {σ : Type} (kapi : KeysAPI σ) (ty : Types) (target path : Str)
    (info : Entry) (e : GoError) (st : RestoreState σ) :
    ∃ st2, restoreFn kapi ty target path (some info) e st = (st2, .returned none) ∧
      Advanced kapi ty target st [(path, info)] st2 := by
  unfold restoreFn Advanced dueCreates
  by_cases hn : info.Name = ty.ContentFile
  · cases hr : info.ReadFile path with
    | error err => simp [hn, hr, issueCreates]
    | ok c =>
      cases hs : kapi.Set st.server (toKey ty target path true) c createOptions with
      | mk err server =>
        cases err with
        | none => simp [hn, hr, hs, issueCreates]
        | some err => simp [hn, hr, hs, issueCreates]
  · simp [hn, issueCreates]

mutual
/-- The walk, with the walk function of `Restore`, of an entry under which
everything reached can be stat-ed neither panics nor returns an error, and
issues the creates due for the entries it visits. -/
theorem walk_restoreFn {σ : Type} (kapi : KeysAPI σ) (ty : Types) (target : Str) :
    (info : Entry) → (path : Str) → (st : RestoreState σ) → info.statable = true →
    ∃ st2, walk (restoreFn kapi ty target) path info st = (st2, .returned none) ∧
      Advanced kapi ty target st (visited path info) st2
  | .file name read, path, st, _ => by
    obtain ⟨st2, h1, h2⟩ := restoreFn_step kapi ty target path (.file name read) none st
    exact ⟨st2, by simp [walk, h1], by simpa [visited] using h2⟩
  | .unstatable name err, path, st, hs => by
    simp [Entry.statable] at hs
  | .dir name (some err) children, path, st, _ => by
    obtain ⟨st1, h1, h2⟩ :=
      restoreFn_step kapi ty target path (.dir name (some err) children) (some err) st
    exact ⟨st1, by simp [walk, h1], by simpa [visited] using h2⟩
  | .dir name none children, path, st, hs => by
    obtain ⟨st1, h1, h2⟩ :=
      restoreFn_step kapi ty target path (.dir name none children) none st
    obtain ⟨st2, h3, h4⟩ := walkNames_restoreFn kapi ty target children path st1
      (by simpa [Entry.statable] using hs)
    refine ⟨st2, by simp [walk, h1, h3], ?_⟩
    have := Advanced_append kapi ty target st st1 st2 _ _ h2 h4
    simpa [visited] using this
/-- The loop over the entries of a directory, likewise. -/
theorem walkNames_restoreFn {σ : Type} (kapi : KeysAPI σ) (ty : Types) (target : Str) :
    (names : List Entry) → (path : Str) → (st : RestoreState σ) → statableAll names = true →
    ∃ st2, walkNames (restoreFn kapi ty target) path names st = (st2, .returned none) ∧
      Advanced kapi ty target st (visitedNames path names) st2
  | [], path, st, _ =>
    ⟨st, by simp [walkNames], by simpa [visitedNames] using Advanced_nil kapi ty target st⟩
  | .unstatable name err :: es, path, st, hs => by
    simp [statableAll, Entry.statable] at hs
  | .file name read :: es, path, st, hs => by
    simp only [statableAll, Bool.and_eq_true] at hs
    obtain ⟨st1, h1, h2⟩ :=
      walk_restoreFn kapi ty target (.file name read) (Join [path, name]) st hs.1
    obtain ⟨st2, h3, h4⟩ := walkNames_restoreFn kapi ty target es path st1 hs.2
    refine ⟨st2, by simp [walkNames, h1, h3], ?_⟩
    have := Advanced_append kapi ty target st st1 st2 _ _ h2 h4
    simpa [visitedNames, Entry.Name] using this
  | .dir name listErr children :: es, path, st, hs => by
    simp only [statableAll, Bool.and_eq_true] at hs
    obtain ⟨st1, h1, h2⟩ :=
      walk_restoreFn kapi ty target (.dir name listErr children) (Join [path, name]) st hs.1
    obtain ⟨st2, h3, h4⟩ := walkNames_restoreFn kapi ty target es path st1 hs.2
    refine ⟨st2, by simp [walkNames, h1, h3], ?_⟩
    have := Advanced_append kapi ty target st st1 st2 _ _ h2 h4
    simpa [visitedNames, Entry.Name] using this
end

/-- One call of the walk function of `Restore` never returns a non-nil error. -/
theorem restoreFn_no_error {σ : Type} (kapi : KeysAPI σ) (ty : Types) (target path : Str)
    (f : Option Entry) (e : GoError) (st : RestoreState σ) (err : Str) :
    (restoreFn kapi ty target path f e st).2 ≠ .returned (some err) := by
  unfold restoreFn
  cases f with
  | none => simp
  | some info =>
    simp only []
    split
    · split
      · simp
      · split <;> simp
    · simp

mutual
/-- A property of the captured state that every call of the walk function of
`Restore` keeps holds at the end of the walk of an entry, however it ends, and
the walk returns no error. -/
theorem walk_restoreFn_inv {σ : Type} (kapi : KeysAPI σ) (ty : Types) (target : Str)
    (I : RestoreState σ → Prop)
    (hI : ∀ path f e st, I st → I (restoreFn kapi ty target path f e st).1) :
    (info : Entry) → (path : Str) → (st : RestoreState σ) → I st →
    I (walk (restoreFn kapi ty target) path info st).1 ∧
      ∀ err, (walk (restoreFn kapi ty target) path info st).2 ≠ .returned (some err)
  | .file name read, path, st, h => by
    simp only [walk]
    exact ⟨hI _ _ _ _ h, fun err => restoreFn_no_error kapi ty target _ _ _ _ err⟩
  | .unstatable name lerr, path, st, h => by
    simp only [walk]
    exact ⟨hI _ _ _ _ h, fun err => restoreFn_no_error kapi ty target _ _ _ _ err⟩
  | .dir name listErr children, path, st, h => by
    have h1 := hI path (some (.dir name listErr children)) listErr st h
    have h2 := restoreFn_no_error kapi ty target path (some (.dir name listErr children))
      listErr st
    simp only [walk]
    generalize restoreFn kapi ty target path (some (.dir name listErr children)) listErr st = r
      at h1 h2
    obtain ⟨st1, w⟩ := r
    cases w with
    | panicked => exact ⟨h1, fun err => by simp⟩
    | returned err1 =>
      cases err1 with
      | some x => exact absurd rfl (h2 x)
      | none =>
        cases listErr with
        | some lerr => exact ⟨h1, fun err => by simp⟩
        | none =>
          simpa using walkNames_restoreFn_inv kapi ty target I hI children path st1 h1
/-- The loop over the entries of a directory, likewise. -/
theorem walkNames_restoreFn_inv {σ : Type} (kapi : KeysAPI σ) (ty : Types) (target : Str)
    (I : RestoreState σ → Prop)
    (hI : ∀ path f e st, I st → I (restoreFn kapi ty target path f e st).1) :
    (names : List Entry) → (path : Str) → (st : RestoreState σ) → I st →
    I (walkNames (restoreFn kapi ty target) path names st).1 ∧
      ∀ err, (walkNames (restoreFn kapi ty target) path names st).2 ≠ .returned (some err)
  | [], path, st, h => by
    simp only [walkNames]
    exact ⟨h, fun err => by simp⟩
  | .unstatable name lerr :: es, path, st, h => by
    have h1 := hI (Join [path, name]) none (some lerr) st h
    have h2 := restoreFn_no_error kapi ty target (Join [path, name]) none (some lerr) st
    simp only [walkNames]
    generalize restoreFn kapi ty target (Join [path, name]) none (some lerr) st = r at h1 h2
    obtain ⟨st1, w⟩ := r
    cases w with
    | panicked => exact ⟨h1, fun err => by simp⟩
    | returned err1 =>
      cases err1 with
      | some x => exact absurd rfl (h2 x)
      | none => exact walkNames_restoreFn_inv kapi ty target I hI es path st1 h1
  | .file name read :: es, path, st, h => by
    obtain ⟨h1, h2⟩ :=
      walk_restoreFn_inv kapi ty target I hI (.file name read) (Join [path, name]) st h
    simp only [walkNames]
    generalize walk (restoreFn kapi ty target) (Join [path, name]) (.file name read) st = r
      at h1 h2
    obtain ⟨st1, w⟩ := r
    cases w with
    | panicked => exact ⟨h1, fun err => by simp⟩
    | returned err1 =>
      cases err1 with
      | some x => exact absurd rfl (h2 x)
      | none => exact walkNames_restoreFn_inv kapi ty target I hI es path st1 h1
  | .dir name listErr children :: es, path, st, h => by
    obtain ⟨h1, h2⟩ :=
      walk_restoreFn_inv kapi ty target I hI (.dir name listErr children)
        (Join [path, name]) st h
    simp only [walkNames]
    generalize walk (restoreFn kapi ty target) (Join [path, name])
      (.dir name listErr children) st = r at h1 h2
    obtain ⟨st1, w⟩ := r
    cases w with
    | panicked => exact ⟨h1, fun err => by simp⟩
    | returned err1 =>
      cases err1 with
      | some x => exact absurd rfl (h2 x)
      | none => exact walkNames_restoreFn_inv kapi ty target I hI es path st1 h1
end

/-- The walk started by `Restore`, whatever `os.Lstat` finds at its root, keeps
every property that the walk function keeps, and returns no error. -/
theorem Walk_restoreFn_inv {σ : Type} (kapi : KeysAPI σ) (ty : Types) (root : Str)
    (I : RestoreState σ → Prop)
    (hI : ∀ path f e st, I st → I (restoreFn kapi ty root path f e st).1)
    (lstat : Except Str Entry) (st : RestoreState σ) (h : I st) :
    I (Walk lstat root (restoreFn kapi ty root) st).1 ∧
      ∀ err, (Walk lstat root (restoreFn kapi ty root) st).2 ≠ .returned (some err) := by
  unfold Walk
  cases lstat with
  | error e =>
    have h1 := hI root none (some e) st h
    have h2 := restoreFn_no_error kapi ty root root none (some e) st
    simp only []
    generalize restoreFn kapi ty root root none (some e) st = r at h1 h2
    obtain ⟨st1, w⟩ := r
    cases w with
    | panicked => exact ⟨h1, fun err => by simp⟩
    | returned err1 =>
      cases err1 with
      | some x => exact absurd rfl (h2 x)
      | none => exact ⟨h1, fun err => by simp⟩
  | ok info =>
    obtain ⟨h1, h2⟩ := walk_restoreFn_inv kapi ty root I hI info root st h
    simp only []
    generalize walk (restoreFn kapi ty root) root info st = r at h1 h2
    obtain ⟨st1, w⟩ := r
    cases w with
    | panicked => exact ⟨h1, fun err => by simp⟩
    | returned err1 =>
      cases err1 with
      | some x => exact absurd rfl (h2 x)
      | none => exact ⟨h1, fun err => by simp⟩

/-- The walk started by `Restore` on a tree in which everything reached can be
stat-ed returns no error and issues the creates due for the entries visited. -/
theorem Walk_restoreFn {σ : Type} (kapi : KeysAPI σ) (ty : Types) (root : Str)
    (tree : Entry) (st : RestoreState σ) (hs : tree.statable = true) :
    ∃ st2, Walk (.ok tree) root (restoreFn kapi ty root) st = (st2, .returned none) ∧
      Advanced kapi ty root st (visited root tree) st2 := by
  obtain ⟨st2, h1, h2⟩ := walk_restoreFn kapi ty root tree root st hs
  exact ⟨st2, by simp [Walk, h1], h2⟩

/-- A walk whose root cannot be stat-ed calls the walk function of `Restore`
with a nil file info, on which it panics. -/
theorem Walk_restoreFn_lstat_error {σ : Type} (kapi : KeysAPI σ) (ty : Types) (root : Str)
    (e : Str) (st : RestoreState σ) :
    Walk (.error e) root (restoreFn kapi ty root) st = (st, .panicked) := by
  simp [Walk, restoreFn]

/-- C2: when the probe succeeds with a version starting with `3` or with `2`
and the matching client opens, the result depends only on the two reads, issued
through that client: `NotADistro` when the read of the Kubernetes prefix fails,
`Vanilla` when it succeeds and the read of the OpenShift prefix fails,
`OpenShift` when both succeed, each without error. -/
theorem ProbeKubernetesDistro_classifies (net : Net) (ty : Types) (endpoint version : Str)
    (secure : Bool) (get : Str → GoError)
    (hprobe : (ProbeEtcd net endpoint).1 = (version, secure, none))
    (hclient :
      (HasPrefix version "3".toList = true ∧ net.newClient3 endpoint secure = none ∧
          get = net.get3 endpoint secure) ∨
      (HasPrefix version "3".toList = false ∧ HasPrefix version "2".toList = true ∧
          net.newClient2 endpoint secure = none ∧ get = net.get2 endpoint secure)) :
    (get ty.KubernetesPrefix ≠ none →
        (ProbeKubernetesDistro net ty endpoint).1 = (.NotADistro, none)) ∧
    (get ty.KubernetesPrefix = none → get ty.OpenShiftPrefix ≠ none →
        (ProbeKubernetesDistro net ty endpoint).1 = (.Vanilla, none)) ∧
    (get ty.KubernetesPrefix = none → get ty.OpenShiftPrefix = none →
        (ProbeKubernetesDistro net ty endpoint).1 = (.OpenShift, none)) := by
  have hp : ProbeEtcd net endpoint = ((version, secure, none), (ProbeEtcd net endpoint).2) :=
    Prod.ext hprobe rfl
  unfold ProbeKubernetesDistro
  generalize (ProbeEtcd net endpoint).2 = evs at hp
  rw [hp]
  rcases hclient with ⟨h3, ho, hg⟩ | ⟨h3, h2, ho, hg⟩
  · subst hg
    simp only [h3, if_true, ho]
    cases hk : net.get3 endpoint secure ty.KubernetesPrefix with
    | some e => simp
    | none =>
      cases hO : net.get3 endpoint secure ty.OpenShiftPrefix with
      | some e => simp
      | none => simp
  · subst hg
    simp only [h3, h2, if_true, ho]
    cases hk : net.get2 endpoint secure ty.KubernetesPrefix with
    | some e => simp
    | none =>
      cases hO : net.get2 endpoint secure ty.OpenShiftPrefix with
      | some e => simp
      | none => simp

theorem ProbeKubernetesDistro_classifies_witness :
    (ProbeKubernetesDistro (sampleNet "3.1.0".toList none (some "not found".toList))
      sampleTypes "https://localhost:2379".toList).1 = (.Vanilla, none) :=
  (ProbeKubernetesDistro_classifies (sampleNet "3.1.0".toList none (some "not found".toList))
    sampleTypes "https://localhost:2379".toList "3.1.0".toList true
    (fun key => if key = "/registry".toList then none else some "not found".toList)
    (by decide) (Or.inl ⟨by decide, rfl, rfl⟩)).2.1 (by decide) (by decide)

/-- C3: when the probe succeeds with a version that starts neither with `2` nor
with `3` (the empty version included), the result is `NotADistro` with the error
"Can't determine Kubernetes distro", and no etcd client is opened. -/
theorem ProbeKubernetesDistro_unknown_version (net : Net) (ty : Types)
    (endpoint version : Str) (secure : Bool)
    (hprobe : (ProbeEtcd net endpoint).1 = (version, secure, none))
    (h2 : HasPrefix version "2".toList = false) (h3 : HasPrefix version "3".toList = false) :
    (ProbeKubernetesDistro net ty endpoint).1 =
        (.NotADistro, some "Can't determine Kubernetes distro".toList) ∧
      ∀ ev ∈ (ProbeKubernetesDistro net ty endpoint).2, ev.isClientOpen = false := by
  have hev := ProbeEtcd_events net endpoint
  have hp : ProbeEtcd net endpoint = ((version, secure, none), (ProbeEtcd net endpoint).2) :=
    Prod.ext hprobe rfl
  unfold ProbeKubernetesDistro
  generalize (ProbeEtcd net endpoint).2 = evs at hp hev
  rw [hp]
  simp only [h2, h3]
  exact ⟨by simp, fun ev h => (hev ev (by simpa using h)).1⟩

theorem ProbeKubernetesDistro_unknown_version_witness :
    (ProbeKubernetesDistro (sampleNet [] none none) sampleTypes
        "http://localhost:2379".toList).1 =
        (.NotADistro, some "Can't determine Kubernetes distro".toList) ∧
      ∀ ev ∈ (ProbeKubernetesDistro (sampleNet [] none none) sampleTypes
        "http://localhost:2379".toList).2, ev.isClientOpen = false :=
  ProbeKubernetesDistro_unknown_version (sampleNet [] none none) sampleTypes
    "http://localhost:2379".toList [] false (by decide) (by decide) (by decide)
theorem unarch_ok (disk : Disk) (afile target : Str)
    (h : disk.unarchiveFile afile target = none) : unarch disk afile target = none := by
  simp [unarch, h]

/-- C4: when the archive unpacks and the probe succeeds with a version starting
with `3`, `Restore` returns the count 0 with the error "Endpoint version
(version).x not supported", leaves the endpoint as it was and issues no write. -/
theorem Restore_rejects_etcd3 {σ : Type} (net : Net) (disk : Disk) (kapi : KeysAPI σ)
    (ty : Types) (afile target endpoint version : Str) (secure : Bool) (server : σ)
    (hunpack : disk.unarchiveFile (Join [target, afile] ++ ".zip".toList) target = none)
    (hprobe : (ProbeEtcd net endpoint).1 = (version, secure, none))
    (h3 : HasPrefix version "3".toList = true) :
    (Restore net disk kapi ty afile target endpoint server).1 =
        .returned 0
          (some ("Endpoint version ".toList ++ version ++ ".x not supported".toList)) ∧
      (Restore net disk kapi ty afile target endpoint server).2.1 = server ∧
      ∀ ev ∈ (Restore net disk kapi ty afile target endpoint server).2.2,
        ev.isWrite = false := by
  have hev := ProbeEtcd_events net endpoint
  have hp : ProbeEtcd net endpoint = ((version, secure, none), (ProbeEtcd net endpoint).2) :=
    Prod.ext hprobe rfl
  unfold Restore
  generalize (ProbeEtcd net endpoint).2 = evs at hp hev
  simp only [unarch_ok disk _ _ hunpack, hp, h3, if_true]
  refine ⟨trivial, trivial, ?_⟩
  intro ev h
  rcases List.mem_cons.1 h with h | h
  · subst h; rfl
  · exact (hev ev h).2.1

theorem Restore_rejects_etcd3_witness :
    (Restore (sampleNet "3.1.0".toList none none) (sampleDisk (.ok sampleTree)) etcd2
        sampleTypes "1498055655".toList "/tmp".toList "http://localhost:2379".toList []).1 =
        .returned 0 (some "Endpoint version 3.1.0.x not supported".toList) :=
  (Restore_rejects_etcd3 (sampleNet "3.1.0".toList none none) (sampleDisk (.ok sampleTree))
    etcd2 sampleTypes "1498055655".toList "/tmp".toList "http://localhost:2379".toList
    "3.1.0".toList false [] (by decide) (by decide) (by decide)).1

/-- C10: when the archive unpacks and the probe succeeds with a version that
starts neither with `2` nor with `3`, `Restore` returns the count 0 and no
error, leaves the endpoint as it was and issues no write. -/
theorem Restore_unknown_version_restores_nothing {σ : Type} (net : Net) (disk : Disk)
    (kapi : KeysAPI σ) (ty : Types) (afile target endpoint version : Str) (secure : Bool)
    (server : σ)
    (hunpack : disk.unarchiveFile (Join [target, afile] ++ ".zip".toList) target = none)
    (hprobe : (ProbeEtcd net endpoint).1 = (version, secure, none))
    (h2 : HasPrefix version "2".toList = false) (h3 : HasPrefix version "3".toList = false) :
    (Restore net disk kapi ty afile target endpoint server).1 = .returned 0 none ∧
      (Restore net disk kapi ty afile target endpoint server).2.1 = server ∧
      ∀ ev ∈ (Restore net disk kapi ty afile target endpoint server).2.2,
        ev.isWrite = false := by
  have hev := ProbeEtcd_events net endpoint
  have hp : ProbeEtcd net endpoint = ((version, secure, none), (ProbeEtcd net endpoint).2) :=
    Prod.ext hprobe rfl
  unfold Restore
  generalize (ProbeEtcd net endpoint).2 = evs at hp hev
  simp only [unarch_ok disk _ _ hunpack, hp, h3, h2]
  refine ⟨rfl, rfl, ?_⟩
  intro ev h
  rcases List.mem_cons.1 h with h | h
  · subst h; rfl
  · exact (hev ev h).2.1

theorem Restore_unknown_version_restores_nothing_witness :
    (Restore (sampleNet "4.0.0".toList none none) (sampleDisk (.ok sampleTree)) etcd2
        sampleTypes "1498055655".toList "/tmp".toList "http://localhost:2379".toList []).1 =
        .returned 0 none :=
  (Restore_unknown_version_restores_nothing (sampleNet "4.0.0".toList none none)
    (sampleDisk (.ok sampleTree)) etcd2 sampleTypes "1498055655".toList "/tmp".toList
    "http://localhost:2379".toList "4.0.0".toList false [] (by decide) (by decide)
    (by decide) (by decide)).1

/-- The protocol-2 branch of `Restore`: when unpacking, probing (version
starting with `2`) and opening the client succeed, the call is the walk of the
unpacked tree followed by the three ways it can end. -/
theorem Restore_protocol2 {σ : Type} (net : Net) (disk : Disk) (kapi : KeysAPI σ)
    (ty : Types) (afile target endpoint version : Str) (secure : Bool) (server : σ)
    (hunpack : disk.unarchiveFile (Join [target, afile] ++ ".zip".toList) target = none)
    (hprobe : (ProbeEtcd net endpoint).1 = (version, secure, none))
    (h3 : HasPrefix version "3".toList = false) (h2 : HasPrefix version "2".toList = true)
    (hopen : net.newClient2 endpoint secure = none) :
    Restore net disk kapi ty afile target endpoint server =
      match Walk (disk.lstat (Abs disk.getwd (Join [target, afile, ['/']])))
          (Abs disk.getwd (Join [target, afile, ['/']]))
          (restoreFn kapi ty (Abs disk.getwd (Join [target, afile, ['/']])))
          ⟨0, none, server, Event.unarchive (Join [target, afile] ++ ".zip".toList) target ::
            (ProbeEtcd net endpoint).2 ++ [Event.newClient2 endpoint secure]⟩ with
      | (st, .panicked) => (.panicked, st.server, st.events)
      | (st, .returned (some err)) =>
        (.returned 0
            (some ("Can't traverse directory ".toList ++
              Abs disk.getwd (Join [target, afile, ['/']]) ++ ": ".toList ++ err)),
          st.server, st.events)
      | (st, .returned none) => (.returned st.numrestored none, st.server, st.events) := by
  have hp : ProbeEtcd net endpoint = ((version, secure, none), (ProbeEtcd net endpoint).2) :=
    Prod.ext hprobe rfl
  unfold Restore
  generalize (ProbeEtcd net endpoint).2 = evs at hp
  simp only [unarch_ok disk _ _ hunpack, hp, h3, h2, if_true, hopen, Bool.false_eq_true,
    if_false]

/-- What the code does when everything the walk reaches can be stat-ed: when
unpacking, probing (version starting with `2`) and opening the client succeed
and the unpacked tree is found at the walk root, `Restore` returns without error
the number of creates that succeeded among those issued, in walk order, for
every visited entry named `types.ContentFile` whose content could be read; the
endpoint is left as these creates leave it. A failed read or create neither
stops the walk nor yields an error. -/
theorem Restore_counts_created_keys {σ : Type} (net : Net) (disk : Disk) (kapi : KeysAPI σ)
    (ty : Types) (afile target endpoint version : Str) (secure : Bool) (server : σ)
    (tree : Entry)
    (hunpack : disk.unarchiveFile (Join [target, afile] ++ ".zip".toList) target = none)
    (hprobe : (ProbeEtcd net endpoint).1 = (version, secure, none))
    (h3 : HasPrefix version "3".toList = false) (h2 : HasPrefix version "2".toList = true)
    (hopen : net.newClient2 endpoint secure = none)
    (htree : disk.lstat (Abs disk.getwd (Join [target, afile, ['/']])) = .ok tree)
    (hstat : tree.statable = true) :
    (Restore net disk kapi ty afile target endpoint server).1 =
        .returned
          ((issueCreates kapi server
              (dueCreates ty (Abs disk.getwd (Join [target, afile, ['/']]))
                (visited (Abs disk.getwd (Join [target, afile, ['/']])) tree))).1.count true)
          none ∧
      (Restore net disk kapi ty afile target endpoint server).2.1 =
        (issueCreates kapi server
          (dueCreates ty (Abs disk.getwd (Join [target, afile, ['/']]))
            (visited (Abs disk.getwd (Join [target, afile, ['/']])) tree))).2 := by
  rw [Restore_protocol2 net disk kapi ty afile target endpoint version secure server
    hunpack hprobe h3 h2 hopen, htree]
  obtain ⟨st2, hw, hn, hs⟩ := Walk_restoreFn kapi ty
    (Abs disk.getwd (Join [target, afile, ['/']])) tree
    ⟨0, none, server, Event.unarchive (Join [target, afile] ++ ".zip".toList) target ::
      (ProbeEtcd net endpoint).2 ++ [Event.newClient2 endpoint secure]⟩ hstat
  rw [hw]
  simp only [Nat.zero_add] at hn hs
  exact ⟨by simp only [hn], hs⟩

theorem Restore_counts_created_keys_example :
    (Restore (sampleNet "2.3.7".toList none none) (sampleDisk (.ok sampleTree)) etcd2
        sampleTypes "1498055655".toList "/tmp".toList "http://localhost:2379".toList
        [("/foo".toList, Node.value "old".toList)]).1 = .returned 1 none :=
  (Restore_counts_created_keys (sampleNet "2.3.7".toList none none)
    (sampleDisk (.ok sampleTree)) etcd2 sampleTypes "1498055655".toList "/tmp".toList
    "http://localhost:2379".toList "2.3.7".toList false
    [("/foo".toList, Node.value "old".toList)] sampleTree
    (by decide) (by decide) (by decide) (by decide) (by decide) rfl (by decide)).1

/-- C5 (the code departs from it): with unpacking, probing (version `2.3.7`) and
opening the client all succeeding, `Restore` does not return. On the unpacked
tree in which the directory `that` lists a name that cannot be stat-ed, the key
`/foo` is created and the call then panics, the walk function being handed a
nil file info; on a walk root that cannot be stat-ed it panics at once. -/
theorem Restore_panics_without_file_info :
    (Restore (sampleNet "2.3.7".toList none none) (sampleDisk (.ok brokenTree)) etcd2
        sampleTypes "1498055655".toList "/tmp".toList "http://localhost:2379".toList []).1 =
        .panicked ∧
      (Restore (sampleNet "2.3.7".toList none none) (sampleDisk (.ok brokenTree)) etcd2
        sampleTypes "1498055655".toList "/tmp".toList "http://localhost:2379".toList []).2.1 =
        [("/foo".toList, Node.value "some".toList)] ∧
      (Restore (sampleNet "2.3.7".toList none none)
        (sampleDisk (.error "no such file or directory".toList)) etcd2 sampleTypes
        "1498055655".toList "/tmp".toList "http://localhost:2379".toList []).1 =
        .panicked := by
  decide

/-- One call of the walk function keeps what `Kept` states, on an endpoint that
honours the must-not-exist create. -/
theorem restoreFn_kept_info {σ : Type} (kapi : KeysAPI σ) (ty : Types) (target path k v : Str)
    (hlaw : HonoursPrevNoExist kapi) (info : Entry) (e : GoError)
    (st st2 : RestoreState σ) (w : WalkEnd) (hk : Kept kapi k v st)
    (h : restoreFn kapi ty target path (some info) e st = (st2, w)) :
    Kept kapi k v st2 := by
  obtain ⟨hget, hev, hn⟩ := hk
  unfold restoreFn at h
  by_cases hname : info.Name = ty.ContentFile
  · simp only [hname, if_true] at h
    cases hr : info.ReadFile path with
    | error rerr =>
      simp only [hr, Prod.mk.injEq] at h
      obtain ⟨h, -⟩ := h
      subst h
      refine ⟨hget, ?_, ?_⟩
      · intro ev hmem
        rcases List.mem_append.1 hmem with hmem | hmem
        · exact hev ev hmem
        · simp only [List.mem_singleton] at hmem
          subst hmem
          rfl
      · simp [List.countP_append, hn, Event.isOkSet]
    | ok c =>
      simp only [hr] at h
      have hfail := hlaw.1 st.server (toKey ty target path true)
      have hframe := hlaw.2 st.server k v (toKey ty target path true) c hget
      cases hs : kapi.Set st.server (toKey ty target path true) c createOptions with
      | mk serr server =>
        rw [hs] at hframe
        cases serr with
        | some serr =>
          simp only [hs, Prod.mk.injEq] at h
          obtain ⟨h, -⟩ := h
          subst h
          refine ⟨hframe, ?_, ?_⟩
          · intro ev hmem
            rcases List.mem_append.1 hmem with hmem | hmem
            · exact hev ev hmem
            · simp only [List.mem_cons, List.mem_singleton, List.not_mem_nil, or_false] at hmem
              rcases hmem with hmem | hmem <;> subst hmem <;> simp [Event.violates]
          · simp [List.countP_append, hn, Event.isOkSet]
        | none =>
          simp only [hs, Prod.mk.injEq] at h
          obtain ⟨h, -⟩ := h
          subst h
          have hne : toKey ty target path true ≠ k := by
            intro heq
            have := hfail v c (by rw [heq]; exact hget)
            rw [hs] at this
            exact this rfl
          refine ⟨hframe, ?_, ?_⟩
          · intro ev hmem
            rcases List.mem_append.1 hmem with hmem | hmem
            · exact hev ev hmem
            · simp only [List.mem_cons, List.mem_singleton, List.not_mem_nil, or_false] at hmem
              rcases hmem with hmem | hmem <;> subst hmem <;> simp [Event.violates, hne]
          · simp [List.countP_append, hn, Event.isOkSet]
  · simp only [hname, if_false, Prod.mk.injEq] at h
    obtain ⟨h, -⟩ := h
    subst h
    exact ⟨hget, hev, hn⟩

/-- One call of the walk function keeps what `Kept` states, with or without a
file info. -/
theorem restoreFn_kept {σ : Type} (kapi : KeysAPI σ) (ty : Types) (target k v : Str)
    (hlaw : HonoursPrevNoExist kapi) (path : Str) (f : Option Entry) (e : GoError)
    (st : RestoreState σ) (hk : Kept kapi k v st) :
    Kept kapi k v (restoreFn kapi ty target path f e st).1 := by
  cases f with
  | none => exact hk
  | some info =>
    exact restoreFn_kept_info kapi ty target path k v hlaw info e st _ _ hk rfl

/-- C7: on an endpoint that honours the must-not-already-exist create, a key
that holds a value before `Restore` holds the same value after it; every write
`Restore` issues is a create with `Dir: false` and `PrevNoExist`, and none for
that key succeeds; and the count returned is the number of creates that
succeeded, so that the key is not counted. -/
theorem Restore_keeps_existing_key {σ : Type} (net : Net) (disk : Disk) (kapi : KeysAPI σ)
    (ty : Types) (afile target endpoint : Str) (server : σ) (k v : Str)
    (hlaw : HonoursPrevNoExist kapi) (hheld : kapi.Get server k = some v) :
    kapi.Get (Restore net disk kapi ty afile target endpoint server).2.1 k = some v ∧
      (∀ ev ∈ (Restore net disk kapi ty afile target endpoint server).2.2,
        ev.violates k = false) ∧
      (∀ n err, (Restore net disk kapi ty afile target endpoint server).1 = .returned n err →
        n = (Restore net disk kapi ty afile target endpoint server).2.2.countP
          Event.isOkSet) := by
  have hev := ProbeEtcd_events net endpoint
  unfold Restore
  cases hu : unarch disk (Join [target, afile] ++ ".zip".toList) target with
  | some uerr =>
    simp only [hu]
    refine ⟨hheld, ?_, ?_⟩
    · intro ev h
      simp only [List.mem_singleton] at h
      subst h; rfl
    · intro n err h
      simp only [Outcome.returned.injEq] at h
      simp [Event.isOkSet, ← h.1]
  | none =>
    simp only [hu]
    generalize ProbeEtcd net endpoint = pr at hev
    obtain ⟨⟨version, secure, perr⟩, evs⟩ := pr
    have hev0 : ∀ ev ∈ Event.unarchive (Join [target, afile] ++ ".zip".toList) target :: evs,
        ev.violates k = false := by
      intro ev h
      rcases List.mem_cons.1 h with h | h
      · subst h; rfl
      · exact (hev ev h).2.2.2 k
    have hc0 : (Event.unarchive (Join [target, afile] ++ ".zip".toList) target :: evs).countP
        Event.isOkSet = 0 := by
      rw [List.countP_eq_zero]
      intro ev h
      rcases List.mem_cons.1 h with h | h
      · subst h; simp [Event.isOkSet]
      · simp [(hev ev h).2.2.1]
    have hev1 : ∀ ev ∈ Event.unarchive (Join [target, afile] ++ ".zip".toList) target ::
        evs ++ [Event.newClient2 endpoint secure], ev.violates k = false := by
      intro ev h
      rcases List.mem_append.1 h with h | h
      · exact hev0 ev h
      · simp only [List.mem_singleton] at h
        subst h; rfl
    have hc1 : (Event.unarchive (Join [target, afile] ++ ".zip".toList) target ::
        evs ++ [Event.newClient2 endpoint secure]).countP Event.isOkSet = 0 := by
      rw [List.countP_append, hc0]
      simp [Event.isOkSet]
    cases perr with
    | some perr =>
      refine ⟨hheld, hev0, ?_⟩
      intro n err h
      simp only [Outcome.returned.injEq] at h
      rw [hc0]; exact h.1.symm
    | none =>
      simp only []
      cases h3 : HasPrefix version "3".toList with
      | true =>
        simp only [if_true]
        refine ⟨hheld, hev0, ?_⟩
        intro n err h
        simp only [Outcome.returned.injEq] at h
        rw [hc0]; exact h.1.symm
      | false =>
        simp only [Bool.false_eq_true, if_false]
        cases h2 : HasPrefix version "2".toList with
        | false =>
          simp only [Bool.false_eq_true, if_false]
          refine ⟨hheld, hev0, ?_⟩
          intro n err h
          simp only [Outcome.returned.injEq] at h
          rw [hc0]; exact h.1.symm
        | true =>
          simp only [if_true]
          cases ho : net.newClient2 endpoint secure with
          | some oerr =>
            simp only []
            refine ⟨hheld, hev1, ?_⟩
            intro n err h
            simp only [Outcome.returned.injEq] at h
            rw [hc1]; exact h.1.symm
          | none =>
            simp only []
            obtain ⟨hk, hne⟩ := Walk_restoreFn_inv kapi ty
              (Abs disk.getwd (Join [target, afile, ['/']])) (Kept kapi k v)
              (fun path f e st h => restoreFn_kept kapi ty _ k v hlaw path f e st h)
              (disk.lstat (Abs disk.getwd (Join [target, afile, ['/']])))
              ⟨0, none, server, Event.unarchive (Join [target, afile] ++ ".zip".toList)
                target :: evs ++ [Event.newClient2 endpoint secure]⟩
              ⟨hheld, hev1, hc1.symm⟩
            generalize Walk (disk.lstat (Abs disk.getwd (Join [target, afile, ['/']])))
              (Abs disk.getwd (Join [target, afile, ['/']]))
              (restoreFn kapi ty (Abs disk.getwd (Join [target, afile, ['/']])))
              ⟨0, none, server, Event.unarchive (Join [target, afile] ++ ".zip".toList)
                target :: evs ++ [Event.newClient2 endpoint secure]⟩ = r at hk hne
            obtain ⟨st2, w⟩ := r
            cases w with
            | panicked =>
              refine ⟨hk.1, hk.2.1, ?_⟩
              intro n err h
              simp at h
            | returned werr =>
              cases werr with
              | some x => exact absurd rfl (hne x)
              | none =>
                refine ⟨hk.1, hk.2.1, ?_⟩
                intro n err h
                simp only [Outcome.returned.injEq] at h
                rw [← h.1]; exact hk.2.2

/-- C6 (what the code does instead): a protocol-2 restore never returns the
"Can't traverse directory" error, nor any other error once the client is open.
It panics when the walk root cannot be stat-ed, returns a count without error
when everything the walk reaches can be stat-ed, and returns the count 0
without error when the root is a directory that cannot be listed. -/
theorem Restore_traversal_failure_not_reported {σ : Type} (net : Net) (disk : Disk)
    (kapi : KeysAPI σ) (ty : Types) (afile target endpoint version : Str) (secure : Bool)
    (server : σ)
    (hunpack : disk.unarchiveFile (Join [target, afile] ++ ".zip".toList) target = none)
    (hprobe : (ProbeEtcd net endpoint).1 = (version, secure, none))
    (h3 : HasPrefix version "3".toList = false) (h2 : HasPrefix version "2".toList = true)
    (hopen : net.newClient2 endpoint secure = none) :
    (∀ e, disk.lstat (Abs disk.getwd (Join [target, afile, ['/']])) = .error e →
        (Restore net disk kapi ty afile target endpoint server).1 = .panicked) ∧
    (∀ n err, (Restore net disk kapi ty afile target endpoint server).1 = .returned n err →
        err = none) ∧
    (∀ tree, disk.lstat (Abs disk.getwd (Join [target, afile, ['/']])) = .ok tree →
        tree.statable = true →
        ∃ n, (Restore net disk kapi ty afile target endpoint server).1 = .returned n none) ∧
    (∀ name e children,
        disk.lstat (Abs disk.getwd (Join [target, afile, ['/']])) =
          .ok (.dir name (some e) children) →
        (Restore net disk kapi ty afile target endpoint server).1 = .returned 0 none) := by
  rw [Restore_protocol2 net disk kapi ty afile target endpoint version secure server
    hunpack hprobe h3 h2 hopen]
  refine ⟨?_, ?_, ?_, ?_⟩
  · intro e hl
    rw [hl, Walk_restoreFn_lstat_error]
  · obtain ⟨-, hne⟩ := Walk_restoreFn_inv kapi ty
      (Abs disk.getwd (Join [target, afile, ['/']])) (fun _ => True)
      (fun _ _ _ _ _ => trivial)
      (disk.lstat (Abs disk.getwd (Join [target, afile, ['/']])))
      ⟨0, none, server, Event.unarchive (Join [target, afile] ++ ".zip".toList) target ::
        (ProbeEtcd net endpoint).2 ++ [Event.newClient2 endpoint secure]⟩ trivial
    generalize Walk (disk.lstat (Abs disk.getwd (Join [target, afile, ['/']])))
      (Abs disk.getwd (Join [target, afile, ['/']]))
      (restoreFn kapi ty (Abs disk.getwd (Join [target, afile, ['/']])))
      ⟨0, none, server, Event.unarchive (Join [target, afile] ++ ".zip".toList) target ::
        (ProbeEtcd net endpoint).2 ++ [Event.newClient2 endpoint secure]⟩ = r at hne
    obtain ⟨st2, w⟩ := r
    cases w with
    | panicked => intro n err h; simp at h
    | returned werr =>
      cases werr with
      | some x => exact absurd rfl (hne x)
      | none =>
        intro n err h
        simp only [Outcome.returned.injEq] at h
        exact h.2.symm
  · intro tree hl hs
    obtain ⟨st2, hw, -⟩ := Walk_restoreFn kapi ty
      (Abs disk.getwd (Join [target, afile, ['/']])) tree
      ⟨0, none, server, Event.unarchive (Join [target, afile] ++ ".zip".toList) target ::
        (ProbeEtcd net endpoint).2 ++ [Event.newClient2 endpoint secure]⟩ hs
    rw [hl, hw]
    exact ⟨_, rfl⟩
  · intro name e children hl
    obtain ⟨st2, hw, hn, -⟩ := Walk_restoreFn kapi ty
      (Abs disk.getwd (Join [target, afile, ['/']])) (.dir name (some e) children)
      ⟨0, none, server, Event.unarchive (Join [target, afile] ++ ".zip".toList) target ::
        (ProbeEtcd net endpoint).2 ++ [Event.newClient2 endpoint secure]⟩ rfl
    rw [hl, hw]
    simp only [visited, dueCreates, Entry.ReadFile, List.filterMap_cons, List.filterMap_nil,
      issueCreates] at hn
    have hz : st2.numrestored = 0 := by
      rw [hn]
      simp [issueCreates]
    simp only [hz]

theorem lookup_mkdirs (K : Str) (ds : List Str) (ks : Keyspace)
    (h : (ks.lookup K).isSome = true) : (mkdirs ks ds).lookup K = ks.lookup K := by
  induction ds generalizing ks with
  | nil => rfl
  | cons d ds ih =>
    simp only [mkdirs]
    cases hd : (ks.lookup d).isSome with
    | true =>
      simp only [if_true]
      exact ih ks h
    | false =>
      simp only [Bool.false_eq_true, if_false]
      have hne : (K == d) = false := by
        cases hKd : K == d with
        | false => rfl
        | true =>
          have : K = d := by simpa using hKd
          subst this
          rw [h] at hd
          exact absurd hd (by decide)
      have h1 : List.lookup K ((d, Node.directory) :: ks) = ks.lookup K := by
        simp [List.lookup, hne]
      rw [ih _ (by rw [h1]; exact h), h1]

/-- The model of the etcd2 store honours the must-not-already-exist create. -/
theorem etcd2_honours : HonoursPrevNoExist etcd2 := by
  constructor
  · intro s key v value hget
    simp only [etcd2, etcd2Get] at hget
    simp only [etcd2, etcd2Set, createOptions]
    cases hl : List.lookup (Join [['/'], key]) s with
    | none => simp [hl] at hget
    | some node =>
      by_cases h1 : Join [['/'], key] = ['/']
      · simp [h1]
      · simp only [h1, if_false]
        cases hc : (parentKeys (Join [['/'], key])).any
            (fun d => (List.lookup d s).any (fun n => n ≠ Node.directory)) with
        | true => simp
        | false => simp
  · intro s k v key value hget
    simp only [etcd2, etcd2Get] at hget ⊢
    have hsome : (List.lookup (Join [['/'], k]) s).isSome = true := by
      cases hk : List.lookup (Join [['/'], k]) s with
      | none => simp [hk] at hget
      | some n => rfl
    have hkeep : ∀ s2 : Keyspace, List.lookup (Join [['/'], k]) s2 =
        List.lookup (Join [['/'], k]) s →
        (match List.lookup (Join [['/'], k]) s2 with
          | some (Node.value v) => some v
          | _ => none) = some v := by
      intro s2 h2
      rw [h2]
      exact hget
    apply hkeep
    simp only [etcd2Set, createOptions]
    by_cases h1 : Join [['/'], key] = ['/']
    · simp only [h1, if_true]
    · simp only [h1, if_false]
      cases hc : (parentKeys (Join [['/'], key])).any
          (fun d => (List.lookup d s).any (fun n => n ≠ Node.directory)) with
      | true => simp only [if_true]
      | false =>
        simp only [Bool.false_eq_true, if_false]
        cases hl : List.lookup (Join [['/'], key]) s with
        | some node => simp only []
        | none =>
          simp only []
          have hne : (Join [['/'], k] == Join [['/'], key]) = false := by
            cases hKd : Join [['/'], k] == Join [['/'], key] with
            | false => rfl
            | true =>
              have : Join [['/'], k] = Join [['/'], key] := by simpa using hKd
              rw [this, hl] at hsome
              simp at hsome
          rw [List.lookup, hne]
          exact lookup_mkdirs _ _ _ hsome

theorem Restore_keeps_existing_key_witness :
    etcd2.Get (Restore (sampleNet "2.3.7".toList none none) (sampleDisk (.ok sampleTree))
        etcd2 sampleTypes "1498055655".toList "/tmp".toList "http://localhost:2379".toList
        [("/foo".toList, Node.value "old".toList)]).2.1 "/foo".toList = some "old".toList :=
  (Restore_keeps_existing_key (sampleNet "2.3.7".toList none none)
    (sampleDisk (.ok sampleTree)) etcd2 sampleTypes "1498055655".toList "/tmp".toList
    "http://localhost:2379".toList [("/foo".toList, Node.value "old".toList)]
    "/foo".toList "old".toList etcd2_honours (by decide)).1

theorem Restore_traversal_failure_not_reported_witness :
    (Restore (sampleNet "2.3.7".toList none none) (sampleDisk (.ok unreadableTree)) etcd2
        sampleTypes "1498055655".toList "/tmp".toList "http://localhost:2379".toList []).1 =
      .returned 0 none :=
  (Restore_traversal_failure_not_reported (sampleNet "2.3.7".toList none none)
    (sampleDisk (.ok unreadableTree)) etcd2 sampleTypes "1498055655".toList "/tmp".toList
    "http://localhost:2379".toList "2.3.7".toList false [] (by decide) (by decide)
    (by decide) (by decide) (by decide)).2.2.2 _ _ _ rfl

/-! ## Properties of the key/path codec -/

theorem Replace_colon (p s : Str) : Replace s [':'] p = escStr p s := by
  have h : ∀ s : Str, replaceFrom [':'] p 0 s = escStr p s := by
    intro s
    induction s with
    | nil => rfl
    | cons c t ih =>
      by_cases hc : c = ':'
      · subst hc
        simp [replaceFrom, escStr, List.isPrefixOf] at ih ⊢
        exact ih
      · have hc2 : (':' == c) = false := by
          simpa using fun h => hc h.symm
        simp [replaceFrom, escStr, List.isPrefixOf, hc, hc2] at ih ⊢
        exact ih
  simp [Replace, h]

theorem replaceFrom_skip (old new : Str) (a x : Str) :
    replaceFrom old new a.length (a ++ x) = replaceFrom old new 0 x := by
  induction a with
  | nil => rfl
  | cons c t ih => simpa [replaceFrom] using ih

theorem replaceFrom_no_sep (old : Str) (n : Nat) (s : Str) (h : '/' ∉ s) :
    '/' ∉ replaceFrom old [':'] n s := by
  induction s generalizing n with
  | nil => simp [replaceFrom]
  | cons c t ih =>
    have hc : '/' ≠ c := fun e => h (e ▸ List.mem_cons_self _ _)
    have ht : '/' ∉ t := fun e => h (by simp [e])
    cases n with
    | succ m => simpa [replaceFrom] using ih m ht
    | zero =>
      simp only [replaceFrom]
      split
      · intro hm
        simp only [List.mem_append, List.mem_singleton] at hm
        rcases hm with hm | hm
        · exact absurd hm (by decide)
        · exact ih _ ht hm
      · intro hm
        rcases List.mem_cons.1 hm with hm | hm
        · exact hc hm
        · exact ih _ ht hm

theorem escStr_append (p a b : Str) : escStr p (a ++ b) = escStr p a ++ escStr p b := by
  simp [escStr, List.flatMap_append]

theorem escStr_cons_colon (p t : Str) : escStr p (':' :: t) = p ++ escStr p t := by
  simp [escStr]

theorem escStr_cons_other (p t : Str) (c : Char) (h : c ≠ ':') :
    escStr p (c :: t) = c :: escStr p t := by
  simp [escStr, h]

/-- A string shorter than the placeholder that begins the escaped form of `t`
followed by a separator either begins `t`, or ends with a non-empty beginning of
the placeholder. -/
theorem prefix_escStr (p rest : Str) :
    ∀ (t q : Str), q.length < p.length → '/' ∉ q →
      q <+: escStr p t ++ '/' :: rest →
      q <+: t ∨ ∃ a b, q = a ++ b ∧ b ≠ [] ∧ b <+: p := by
  intro t
  induction t with
  | nil =>
    intro q _ hq hpre
    cases q with
    | nil => exact Or.inl (List.nil_prefix)
    | cons c q2 =>
      simp only [escStr, List.flatMap_nil, List.nil_append] at hpre
      have := List.cons_prefix_cons.1 hpre
      exact absurd (this.1 ▸ List.mem_cons_self c q2) hq
  | cons x t ih =>
    intro q hlen hq hpre
    cases q with
    | nil => exact Or.inl (List.nil_prefix)
    | cons c q2 =>
      by_cases hx : x = ':'
      · subst hx
        rw [escStr_cons_colon, List.append_assoc] at hpre
        have hqp : c :: q2 <+: p :=
          List.prefix_of_prefix_length_le hpre (List.prefix_append _ _) (Nat.le_of_lt hlen)
        exact Or.inr ⟨[], c :: q2, rfl, by simp, hqp⟩
      · rw [escStr_cons_other p t x hx, List.cons_append] at hpre
        obtain ⟨hcx, hpre2⟩ := List.cons_prefix_cons.1 hpre
        have hq2 : '/' ∉ q2 := fun e => hq (List.mem_cons_of_mem _ e)
        have hlen2 : q2.length < p.length := by
          simp only [List.length_cons] at hlen; omega
        rcases ih q2 hlen2 hq2 hpre2 with h | ⟨a, b, hab, hb, hbp⟩
        · left
          rw [hcx]
          exact List.cons_prefix_cons.2 ⟨rfl, h⟩
        · right
          exact ⟨c :: a, b, by simp [hab], hb, hbp⟩

theorem unbordered_spec (p a b : Str) (hu : unbordered p = true) (hab : p = a ++ b)
    (ha : a ≠ []) (hb : b ≠ []) : ¬ b <+: p := by
  intro hpre
  have hlen : p.length = a.length + b.length := by rw [hab]; simp
  have ha0 : 0 < a.length := List.length_pos.2 ha
  have hb0 : 0 < b.length := List.length_pos.2 hb
  simp only [unbordered, List.all_eq_true, List.mem_range, decide_eq_true_eq] at hu
  have h1 := hu b.length (by omega)
  rcases h1 with h1 | h1
  · omega
  · apply h1
    have ht : p.take b.length = b := by
      obtain ⟨r, hr⟩ := hpre
      rw [← hr]; simp
    have hd : p.drop (p.length - b.length) = b := by
      have : p.length - b.length = a.length := by omega
      rw [this, hab]; simp
    rw [ht, hd]
/-- Un-escaping the escaped form of `body` followed by a separator gives `body`
back, when the placeholder is not empty, holds no separator, is unbordered and
occurs nowhere in `body`. -/
theorem unescape_escStr (p rest : Str) (hp0 : p ≠ []) (hsep : '/' ∉ p)
    (hu : unbordered p = true) :
    ∀ body : Str, (∀ t, t <:+ body → ¬ p <+: t) →
      replaceFrom p [':'] 0 (escStr p body ++ '/' :: rest) =
        body ++ '/' :: replaceFrom p [':'] 0 rest := by
  obtain ⟨c, p2, rfl⟩ := List.exists_cons_of_ne_nil hp0
  have hc : c ≠ '/' := fun e => hsep (e ▸ List.mem_cons_self _ _)
  have hp2 : '/' ∉ p2 := fun e => hsep (List.mem_cons_of_mem _ e)
  intro body
  induction body with
  | nil =>
    intro _
    have : (c == '/') = false := by simpa using hc
    simp [escStr, replaceFrom, List.isPrefixOf, this]
  | cons x t ih =>
    intro hfree
    have hfree2 : ∀ s, s <:+ t → ¬ (c :: p2) <+: s :=
      fun s hs => hfree s (hs.trans (List.suffix_cons x t))
    by_cases hx : x = ':'
    · subst hx
      rw [escStr_cons_colon, List.append_assoc, List.cons_append]
      have hpre : (c :: p2).isPrefixOf (c :: (p2 ++ (escStr (c :: p2) t ++ '/' :: rest))) = true := by
        rw [List.isPrefixOf_iff_prefix, ← List.cons_append]
        exact List.prefix_append _ _
      simp only [replaceFrom, hpre, if_true, List.length_cons, Nat.add_sub_cancel]
      rw [replaceFrom_skip, ih hfree2]
      rfl
    · rw [escStr_cons_other _ t x hx, List.cons_append]
      have hpre : (c :: p2).isPrefixOf (x :: (escStr (c :: p2) t ++ '/' :: rest)) = false := by
        cases hb : (c :: p2).isPrefixOf (x :: (escStr (c :: p2) t ++ '/' :: rest)) with
        | false => rfl
        | true =>
          exfalso
          rw [List.isPrefixOf_iff_prefix] at hb
          obtain ⟨hcx, hpre2⟩ := List.cons_prefix_cons.1 hb
          rcases prefix_escStr (c :: p2) rest t p2 (by simp) hp2 hpre2 with h | ⟨a, b, hab, hb0, hbp⟩
          · exact hfree (x :: t) (List.suffix_refl _)
              (by rw [hcx]; exact List.cons_prefix_cons.2 ⟨rfl, h⟩)
          · exact unbordered_spec (c :: p2) (c :: a) b hu (by simp [hab]) (by simp) hb0 hbp
      simp only [replaceFrom, hpre, Bool.false_eq_true, if_false]
      rw [ih hfree2]
      rfl

theorem Contains_false (s p : Str) (h : Contains s p = false) :
    ∀ t, t <:+ s → ¬ p <+: t := by
  intro t ht hpre
  have : Contains s p = true := by
    simp only [Contains, List.any_eq_true]
    exact ⟨t, (List.mem_tails t s).2 ht, List.isPrefixOf_iff_prefix.2 hpre⟩
  rw [h] at this
  exact absurd this (by decide)
theorem splitSep_ne_nil (s : Str) : splitSep s ≠ [] := by
  cases s with
  | nil => simp [splitSep]
  | cons c t =>
    simp only [splitSep]
    split
    · simp
    · split <;> simp

theorem splitSep_append (a b : Str) :
    splitSep (a ++ '/' :: b) = splitSep a ++ splitSep b := by
  induction a with
  | nil => simp [splitSep]
  | cons c t ih =>
    by_cases hc : c = '/'
    · simp [splitSep, hc, ih]
    · have e1 : splitSep (c :: t ++ '/' :: b) =
          (match splitSep (t ++ '/' :: b) with
            | [] => [[c]]
            | s :: ss => (c :: s) :: ss) := by
        simp [splitSep, hc]
      have e2 : splitSep (c :: t) =
          (match splitSep t with
            | [] => [[c]]
            | s :: ss => (c :: s) :: ss) := by
        simp [splitSep, hc]
      rw [e1, e2, ih]
      cases h : splitSep t with
      | nil => exact absurd h (splitSep_ne_nil t)
      | cons s ss => rfl

theorem splitSep_no_sep (s : Str) (h : '/' ∉ s) : splitSep s = [s] := by
  induction s with
  | nil => rfl
  | cons c t ih =>
    have hc : c ≠ '/' := fun e => h (e ▸ List.mem_cons_self _ _)
    have ht : '/' ∉ t := fun e => h (List.mem_cons_of_mem _ e)
    simp [splitSep, hc, ih ht]

theorem splitSep_mem_no_sep (s : Str) : ∀ x ∈ splitSep s, '/' ∉ x := by
  induction s with
  | nil => simp [splitSep]
  | cons c t ih =>
    by_cases hc : c = '/'
    · simp only [splitSep, hc, if_true]
      intro x hx
      rcases List.mem_cons.1 hx with hx | hx
      · subst hx; simp
      · exact ih x hx
    · simp only [splitSep, hc, if_false]
      cases h : splitSep t with
      | nil => exact absurd h (splitSep_ne_nil t)
      | cons s ss =>
        rw [h] at ih
        intro x hx
        rcases List.mem_cons.1 hx with hx | hx
        · subst hx
          intro hm
          rcases List.mem_cons.1 hm with hm | hm
          · exact hc hm.symm
          · exact ih s (List.mem_cons_self _ _) hm
        · exact ih x (List.mem_cons_of_mem _ hx)

theorem joinSep_cons (a : Str) (l : List Str) (h : l ≠ []) :
    joinSep (a :: l) = a ++ '/' :: joinSep l := by
  cases l with
  | nil => exact absurd rfl h
  | cons b bs => rfl

theorem joinSep_concat (l : List Str) (c : Str) (h : l ≠ []) :
    joinSep (l ++ [c]) = joinSep l ++ '/' :: c := by
  induction l with
  | nil => exact absurd rfl h
  | cons a t ih =>
    cases t with
    | nil => rfl
    | cons b bs =>
      rw [List.cons_append, joinSep_cons a _ (by simp), ih (by simp),
        joinSep_cons a _ (by simp)]
      simp

theorem splitSep_joinSep (l : List Str) (h : ∀ x ∈ l, '/' ∉ x) (hne : l ≠ []) :
    splitSep (joinSep l) = l := by
  induction l with
  | nil => exact absurd rfl hne
  | cons a t ih =>
    cases t with
    | nil => exact splitSep_no_sep a (h a (List.mem_cons_self _ _))
    | cons b bs =>
      rw [joinSep_cons a _ (by simp), splitSep_append,
        splitSep_no_sep a (h a (List.mem_cons_self _ _)),
        ih (fun x hx => h x (List.mem_cons_of_mem _ hx)) (by simp)]
      rfl

theorem joinSep_splitSep (s : Str) : joinSep (splitSep s) = s := by
  induction s with
  | nil => rfl
  | cons c t ih =>
    by_cases hc : c = '/'
    · simp only [splitSep, hc, if_true]
      rw [joinSep_cons _ _ (splitSep_ne_nil t), ih]
      rfl
    · simp only [splitSep, hc, if_false]
      cases h : splitSep t with
      | nil => exact absurd h (splitSep_ne_nil t)
      | cons s ss =>
        rw [h] at ih
        cases ss with
        | nil =>
          simp only [joinSep] at ih ⊢
          rw [ih]
        | cons s2 ss2 =>
          rw [joinSep_cons _ _ (by simp)] at ih ⊢
          rw [← ih]
          rfl

theorem escStr_sep (p a b : Str) :
    escStr p (a ++ '/' :: b) = escStr p a ++ '/' :: escStr p b := by
  rw [escStr_append, escStr_cons_other p b '/' (by decide)]

theorem joinSep_map_escStr (p : Str) (l : List Str) :
    joinSep (l.map (escStr p)) = escStr p (joinSep l) := by
  induction l with
  | nil => rfl
  | cons a t ih =>
    cases t with
    | nil => rfl
    | cons b bs =>
      rw [List.map_cons, joinSep_cons _ _ (by simp), ih, joinSep_cons a _ (by simp), escStr_sep]

theorem escStr_no_sep (p s : Str) (hp : '/' ∉ p) (hs : '/' ∉ s) : '/' ∉ escStr p s := by
  simp only [escStr, List.mem_flatMap, not_exists, not_and]
  intro c hc
  by_cases h : c = ':'
  · simp [h, hp]
  · simp only [h, if_false, List.mem_singleton]
    intro e
    exact hs (e ▸ hc)

theorem pathElems_append (a b : Str) :
    pathElems (a ++ '/' :: b) = pathElems a ++ pathElems b := by
  simp [pathElems, splitSep_append]
theorem foldl_cleanStep_plain (r : Bool) (l : List Str) (h : ∀ s ∈ l, plain s) :
    ∀ stack, l.foldl (cleanStep r) stack = (l.filter (fun s => s ≠ [])).reverse ++ stack := by
  induction l with
  | nil => intro stack; rfl
  | cons a t ih =>
    intro stack
    have ha := h a (List.mem_cons_self _ _)
    have ht : ∀ s ∈ t, plain s := fun s hs => h s (List.mem_cons_of_mem _ hs)
    rw [List.foldl_cons, ih ht]
    by_cases ha0 : a = []
    · simp [cleanStep, ha0]
    · simp [cleanStep, ha0, ha.1, ha.2]

/-- `Clean` of a rooted path without `.` and `..` elements keeps its non-empty
elements. -/
theorem Clean_plain (p : Str) (hroot : p.head? = some '/') (h : ∀ s ∈ splitSep p, plain s) :
    Clean p = '/' :: joinSep (pathElems p) := by
  have hp : p ≠ [] := by
    intro e; rw [e] at hroot; simp at hroot
  have he : cleanElems true p = pathElems p := by
    simp [cleanElems, pathElems, foldl_cleanStep_plain true _ h]
  simp [Clean, hp, hroot, he]

theorem cleanStep_good (stack : List Str) (seg : Str) (hs : goodElems stack)
    (hseg : '/' ∉ seg) : goodElems (cleanStep true stack seg) := by
  unfold cleanStep
  by_cases h1 : seg = [] ∨ seg = ['.']
  · simp only [h1, if_true]; exact hs
  · simp only [h1, if_false]
    by_cases h2 : seg = ['.', '.']
    · simp only [h2, if_true]
      cases stack with
      | nil => simp [goodElems]
      | cons top rest =>
        have htop := hs top (List.mem_cons_self _ _)
        simp only [htop.2.2.2, if_false]
        exact fun s hm => hs s (List.mem_cons_of_mem _ hm)
    · simp only [h2, if_false]
      intro s hm
      rcases List.mem_cons.1 hm with hm | hm
      · subst hm
        exact ⟨fun e => h1 (Or.inl e), hseg, fun e => h1 (Or.inr e), h2⟩
      · exact hs s hm

theorem foldl_cleanStep_good (l : List Str) (hl : ∀ s ∈ l, '/' ∉ s) :
    ∀ stack, goodElems stack → goodElems (l.foldl (cleanStep true) stack) := by
  induction l with
  | nil => intro stack hs; exact hs
  | cons a t ih =>
    intro stack hs
    rw [List.foldl_cons]
    exact ih (fun s hm => hl s (List.mem_cons_of_mem _ hm)) _
      (cleanStep_good stack a hs (hl a (List.mem_cons_self _ _)))

/-- An absolute path in clean form is the separator followed by file names
joined by separators. -/
theorem cleanAbs_elems (k : Str) (h : cleanAbs k) :
    ∃ l, goodElems l ∧ k = '/' :: joinSep l := by
  obtain ⟨hroot, hclean⟩ := h
  have hk : k ≠ [] := by
    intro e; rw [e] at hroot; simp at hroot
  refine ⟨cleanElems true k, ?_, ?_⟩
  · have := foldl_cleanStep_good (splitSep k) (splitSep_mem_no_sep k) [] (by simp [goodElems])
    intro s hs
    exact this s (by simpa [cleanElems] using hs)
  · have : Clean k = '/' :: joinSep (cleanElems true k) := by
      simp [Clean, hk, hroot]
    rw [← this, hclean]

theorem goodElems_no_sep (l : List Str) (h : goodElems l) : ∀ x ∈ l, '/' ∉ x :=
  fun x hx => (h x hx).2.1

theorem splitSep_joinSep_good (l : List Str) (h : goodElems l) :
    (∀ x ∈ splitSep (joinSep l), plain x) ∧ pathElems (joinSep l) = l := by
  cases l with
  | nil => simp [joinSep, splitSep, plain, pathElems]
  | cons a t =>
    rw [pathElems, splitSep_joinSep _ (goodElems_no_sep _ h) (by simp)]
    refine ⟨fun x hx => ⟨(h x hx).2.2.1, (h x hx).2.2.2⟩, ?_⟩
    rw [List.filter_eq_self]
    intro x hx
    simpa using (h x hx).1

theorem absPath_plain (l : List Str) (h : goodElems l) :
    ∀ x ∈ splitSep ('/' :: joinSep l), plain x := by
  intro x hx
  simp only [splitSep, if_true, List.mem_cons] at hx
  rcases hx with hx | hx
  · subst hx; simp [plain]
  · exact (splitSep_joinSep_good l h).1 x hx

theorem absPath_elems (l : List Str) (h : goodElems l) :
    pathElems ('/' :: joinSep l) = l := by
  have := (splitSep_joinSep_good l h).2
  simp only [pathElems] at this ⊢
  simp only [splitSep, if_true]
  rw [List.filter_cons_of_neg (by simp), this]

theorem Clean_absPath (l : List Str) (h : goodElems l) :
    Clean ('/' :: joinSep l) = '/' :: joinSep l := by
  rw [Clean_plain ('/' :: joinSep l) rfl (absPath_plain l h), absPath_elems l h]

theorem stripCommon_append (b t : List Str) : stripCommon b (b ++ t) = ([], t) := by
  induction b with
  | nil => cases t <;> rfl
  | cons a bs ih => simp [stripCommon, ih]

theorem dirPart_append (a w : Str) (h : '/' ∉ w) : dirPart (a ++ '/' :: w) = a ++ ['/'] := by
  have h1 : (a ++ '/' :: w).reverse = w.reverse ++ '/' :: a.reverse := by simp
  have h2 : ∀ (u v : Str), '/' ∉ u →
      (u ++ '/' :: v).dropWhile (fun c => c ≠ '/') = '/' :: v := by
    intro u v hu
    induction u with
    | nil => simp [List.dropWhile]
    | cons c t ih =>
      have hc : c ≠ '/' := fun e => hu (e ▸ List.mem_cons_self _ _)
      simp only [List.cons_append, List.dropWhile, hc, ne_eq, not_false_eq_true, decide_True]
      exact ih (fun e => hu (List.mem_cons_of_mem _ e))
  rw [dirPart, h1, h2 _ _ (by simpa using h)]
  simp
theorem escStr_no_colon (p s : Str) (h : ':' ∉ s) : escStr p s = s := by
  induction s with
  | nil => rfl
  | cons c t ih =>
    have hc : c ≠ ':' := fun e => h (e ▸ List.mem_cons_self _ _)
    rw [escStr_cons_other p t c hc, ih (fun e => h (List.mem_cons_of_mem _ e))]

theorem escStr_infix (p s : Str) (h : ':' ∈ s) : p <:+: escStr p s := by
  obtain ⟨a, b, rfl⟩ := List.append_of_mem h
  rw [escStr_append, escStr_cons_colon]
  exact ⟨escStr p a, escStr p b, by simp⟩

theorem escStr_ne_nil (p s : Str) (hp : p ≠ []) (hs : s ≠ []) : escStr p s ≠ [] := by
  obtain ⟨c, t, rfl⟩ := List.exists_cons_of_ne_nil hs
  by_cases hc : c = ':'
  · subst hc
    rw [escStr_cons_colon]
    simp [hp]
  · rw [escStr_cons_other p t c hc]
    simp

theorem escStr_plain (p s : Str) (hp0 : p ≠ []) (hp1 : p ≠ ['.']) (hu : unbordered p = true)
    (hs : plain s) : plain (escStr p s) := by
  by_cases hc : ':' ∈ s
  · have hin := escStr_infix p s hc
    have key : ∀ d : Str, d = ['.'] ∨ d = ['.', '.'] → ¬ p <:+: d := by
      intro d hd hpd
      have hlen := hpd.length_le
      have hsub := hpd.subset
      match p, hp0, hp1, hu, hlen, hsub with
      | [c], _, hp1, _, _, hsub =>
        have : c ∈ d := hsub (List.mem_cons_self _ _)
        rcases hd with hd | hd <;> subst hd <;> simp at this <;> exact hp1 (by rw [this])
      | [c, e], _, _, hu, _, hsub =>
        have h1 : c ∈ d := hsub (List.mem_cons_self _ _)
        have h2 : e ∈ d := hsub (List.mem_cons_of_mem _ (List.mem_cons_self _ _))
        have hc1 : c = '.' := by rcases hd with hd | hd <;> subst hd <;> simpa using h1
        have he1 : e = '.' := by rcases hd with hd | hd <;> subst hd <;> simpa using h2
        subst hc1; subst he1
        exact absurd hu (by decide)
      | _ :: _ :: _ :: _, _, _, _, hlen, _ =>
        rcases hd with hd | hd <;> subst hd <;> simp at hlen
    exact ⟨fun e => key _ (Or.inl rfl) (e ▸ hin), fun e => key _ (Or.inr rfl) (e ▸ hin)⟩
  · rw [escStr_no_colon p s hc]
    exact hs

theorem escStr_good (p : Str) (l : List Str) (hp0 : p ≠ []) (hp1 : p ≠ ['.'])
    (hsep : '/' ∉ p) (hu : unbordered p = true) (h : goodElems l) :
    goodElems (l.map (escStr p)) := by
  intro s hs
  obtain ⟨x, hx, rfl⟩ := List.mem_map.1 hs
  obtain ⟨h1, h2, h3, h4⟩ := h x hx
  have hpl := escStr_plain p x hp0 hp1 hu ⟨h3, h4⟩
  exact ⟨escStr_ne_nil p x hp0 h1, escStr_no_sep p x hsep h2, hpl.1, hpl.2⟩

theorem goodElems_append (a b : List Str) (ha : goodElems a) (hb : goodElems b) :
    goodElems (a ++ b) := by
  intro s hs
  rcases List.mem_append.1 hs with hs | hs
  · exact ha s hs
  · exact hb s hs

/-- Joining an absolute clean path with further file names. -/
theorem Clean_absPath_append (b e : List Str) (hb : goodElems b) (he : goodElems e) :
    Clean (('/' :: joinSep b) ++ '/' :: '/' :: joinSep e) = '/' :: joinSep (b ++ e) := by
  rw [Clean_plain (('/' :: joinSep b) ++ '/' :: '/' :: joinSep e) rfl, pathElems_append, absPath_elems b hb, absPath_elems e he]
  rw [splitSep_append]
  intro s hs
  rcases List.mem_append.1 hs with hs | hs
  · exact absPath_plain b hb s hs
  · exact absPath_plain e he s hs

theorem Clean_absPath_file (b : List Str) (c : Str) (hb : goodElems b) (hc : fileName c) :
    Clean (('/' :: joinSep b) ++ '/' :: c) = '/' :: joinSep (b ++ [c]) := by
  have hc1 : splitSep c = [c] := splitSep_no_sep c hc.2.1
  rw [Clean_plain (('/' :: joinSep b) ++ '/' :: c) rfl, pathElems_append, absPath_elems b hb]
  · simp [pathElems, hc1, hc.1]
  · rw [splitSep_append, hc1]
    intro s hs
    rcases List.mem_append.1 hs with hs | hs
    · exact absPath_plain b hb s hs
    · simp only [List.mem_singleton] at hs
      subst hs
      exact ⟨hc.2.2.1, hc.2.2.2⟩

theorem Clean_absPath_slash (b : List Str) (hb : goodElems b) :
    Clean (('/' :: joinSep b) ++ ['/']) = '/' :: joinSep b := by
  rw [Clean_plain (('/' :: joinSep b) ++ ['/']) rfl, pathElems_append, absPath_elems b hb]
  · simp [pathElems, splitSep]
  · rw [splitSep_append]
    intro s hs
    rcases List.mem_append.1 hs with hs | hs
    · exact absPath_plain b hb s hs
    · simp [splitSep] at hs
      subst hs
      simp [plain]

/-- `Rel` of an absolute clean path and a path beneath it. -/
theorem Rel_absPath (b e : List Str) (hb : goodElems b) (he : goodElems e) (hne : e ≠ []) :
    Rel ('/' :: joinSep b) ('/' :: joinSep (b ++ e)) = .ok (joinSep e) := by
  have hbe := goodElems_append b e hb he
  have hdiff : ('/' :: joinSep (b ++ e)) ≠ ('/' :: joinSep b) := by
    intro h
    have := congrArg pathElems h
    rw [absPath_elems _ hbe, absPath_elems _ hb] at this
    have := congrArg List.length this
    simp at this
    exact hne this
  simp only [Rel, Clean_absPath b hb, Clean_absPath _ hbe, hdiff, if_false]
  simp [absPath_elems _ hbe, absPath_elems _ hb, stripCommon_append]
/-- The mirror directory of a clean absolute key under a clean absolute base. -/
theorem toPath_absPath (ty : Types) (b k : List Str) (hb : goodElems b) (hk : goodElems k)
    (hp0 : ty.EscapeColon ≠ []) (hp1 : ty.EscapeColon ≠ ['.'])
    (hsep : '/' ∉ ty.EscapeColon) (hu : unbordered ty.EscapeColon = true) :
    toPath ty ('/' :: joinSep b) ('/' :: joinSep k) =
      '/' :: joinSep (b ++ k.map (escStr ty.EscapeColon)) := by
  have hfun : (fun seg => Replace seg [':'] ty.EscapeColon) = escStr ty.EscapeColon :=
    funext (fun seg => Replace_colon ty.EscapeColon seg)
  have hne : (splitSep (joinSep k)).map (escStr ty.EscapeColon) ≠ [] := by
    simpa using splitSep_ne_nil (joinSep k)
  have he := escStr_good ty.EscapeColon k hp0 hp1 hsep hu hk
  unfold toPath
  rw [hfun]
  simp only [Join, splitSep, if_true, List.map_cons, reduceCtorEq, if_false]
  have h0 : escStr ty.EscapeColon [] = [] := rfl
  rw [h0, joinSep_cons _ _ (by simp), joinSep_cons [] _ hne, joinSep_map_escStr,
    joinSep_splitSep, ← joinSep_map_escStr, List.nil_append]
  exact Clean_absPath_append b _ hb he

/-- C1, amended: for a placeholder that is not empty, is not `.`, holds no
separator and is unbordered, a content file name that is a file name, a base
directory and a key that are absolute paths in clean form, and a key in which
the placeholder does not occur, the key derived by `Restore` from the sentinel
file of the key's mirror directory is the key. -/
theorem toKey_toPath (ty : Types) (base k : Str)
    (hbase : cleanAbs base) (hk : cleanAbs k)
    (hfree : Contains k ty.EscapeColon = false)
    (hp0 : ty.EscapeColon ≠ []) (hp1 : ty.EscapeColon ≠ ['.'])
    (hsep : '/' ∉ ty.EscapeColon) (hu : unbordered ty.EscapeColon = true)
    (hcontent : fileName ty.ContentFile) :
    toKey ty base (sentinelFile ty (toPath ty base k)) true = k := by
  obtain ⟨b, hb, rfl⟩ := cleanAbs_elems base hbase
  obtain ⟨l, hl, rfl⟩ := cleanAbs_elems k hk
  have he := escStr_good ty.EscapeColon l hp0 hp1 hsep hu hl
  have hbe := goodElems_append b _ hb he
  have hc : goodElems [ty.ContentFile] := by
    intro s hs
    simp only [List.mem_singleton] at hs
    subst hs; exact hcontent
  have hec := goodElems_append _ _ he hc
  have hw : '/' ∉ replaceFrom ty.EscapeColon [':'] 0 ty.ContentFile :=
    replaceFrom_no_sep _ _ _ hcontent.2.1
  rw [toPath_absPath ty b l hb hl hp0 hp1 hsep hu]
  have hs : sentinelFile ty ('/' :: joinSep (b ++ l.map (escStr ty.EscapeColon))) =
      '/' :: joinSep (b ++ (l.map (escStr ty.EscapeColon) ++ [ty.ContentFile])) := by
    simp only [sentinelFile, Join, reduceCtorEq, if_false]
    rw [joinSep_cons _ _ (by simp)]
    simp only [joinSep]
    rw [Clean_absPath_file _ _ hbe hcontent, List.append_assoc]
  rw [hs]
  unfold toKey
  rw [Rel_absPath b _ hb hec (by simp)]
  simp only [Replace, hp0, if_false, if_true]
  cases l with
  | nil =>
    simp only [List.map_nil, List.nil_append, joinSep]
    have := dirPart_append [] _ hw
    simp only [List.nil_append] at this
    rw [Dir, this]
    decide
  | cons a t =>
    rw [joinSep_concat _ _ (by simp), joinSep_map_escStr]
    have hfree2 : ∀ s, s <:+ joinSep (a :: t) → ¬ ty.EscapeColon <+: s :=
      fun s hs => Contains_false _ _ hfree s (hs.trans (List.suffix_cons _ _))
    rw [unescape_escStr ty.EscapeColon ty.ContentFile hp0 hsep hu _ hfree2]
    rw [Dir, ← List.cons_append, dirPart_append _ _ hw]
    exact Clean_absPath_slash _ hl

theorem toKey_toPath_witness :
    toKey sampleTypes "/tmp/1498055655".toList
      (sentinelFile sampleTypes
        (toPath sampleTypes "/tmp/1498055655".toList "/test/this:also".toList)) true =
      "/test/this:also".toList :=
  toKey_toPath sampleTypes "/tmp/1498055655".toList "/test/this:also".toList
    ⟨by decide, by decide⟩ ⟨by decide, by decide⟩ (by decide) (by decide) (by decide)
    (by decide) (by decide) ⟨by decide, by decide, by decide, by decide⟩

/-- C1 as stated fails: the key `/test/` of the test table holds no placeholder,
its mirror directory under `/tmp/1498055655` is `/tmp/1498055655/test`, and the
key derived from the sentinel file of that directory is `/test`. -/
theorem toKey_toPath_trailing_separator :
    Contains "/test/".toList sampleTypes.EscapeColon = false ∧
      toPath sampleTypes "/tmp/1498055655".toList "/test/".toList =
        "/tmp/1498055655/test".toList ∧
      toKey sampleTypes "/tmp/1498055655".toList
        (sentinelFile sampleTypes
          (toPath sampleTypes "/tmp/1498055655".toList "/test/".toList)) true =
        "/test".toList ∧
      "/test".toList ≠ "/test/".toList := by
  decide

/-- With a bordered placeholder the round trip fails on a clean key in which the
placeholder does not occur: for the placeholder `aba`, the key `/ab:` is stored
under `ababa` and read back as `/:ba`. -/
theorem toKey_toPath_bordered_placeholder :
    Contains "/ab:".toList "aba".toList = false ∧
      toKey { sampleTypes with EscapeColon := "aba".toList } "/tmp/1498055655".toList
        (sentinelFile { sampleTypes with EscapeColon := "aba".toList }
          (toPath { sampleTypes with EscapeColon := "aba".toList }
            "/tmp/1498055655".toList "/ab:".toList)) true =
        "/:ba".toList := by
  decide
/-! ## Properties of the single-key write path -/

theorem WriteFile_ReadFile (fs fs2 : FileSystem) (path value : Str)
    (h : fs.WriteFile path value = .ok fs2) : fs2.ReadFile path = .ok value := by
  unfold FileSystem.WriteFile at h
  split at h
  · cases h
  · split at h
    · cases h
    · split at h
      · cases h
      · cases h
        simp [FileSystem.ReadFile, List.lookup]

/-- C9: whenever `store` returns no error, the path it returns is the sentinel
content file of the key's mirror directory, and reading that file in the file
system `store` leaves yields the value passed in. -/
theorem store_writes_value (ty : Types) (rejected : Str → Bool) (fs : FileSystem)
    (based key val p : Str)
    (h : (store ty rejected fs based key val).1 = (p, none)) :
    p = sentinelFile ty (toPath ty based key) ∧
      (store ty rejected fs based key val).2.ReadFile p = .ok val := by
  unfold store at h ⊢
  by_cases hk : key = [] ∨ rejected key = true
  · simp [hk] at h
  · simp only [hk, if_false] at h ⊢
    cases hm : fs.MkdirAll (toPath ty based key) with
    | error err => simp [hm] at h
    | ok fs1 =>
      simp only [hm] at h ⊢
      cases hw : fs1.WriteFile (sentinelFile ty (toPath ty based key)) val with
      | error err => simp [hw] at h
      | ok fs2 =>
        simp only [hw, Prod.mk.injEq, and_true] at h ⊢
        subst h
        exact ⟨rfl, WriteFile_ReadFile fs1 fs2 _ val hw⟩

theorem store_writes_value_witness :
    "test/thisESC_COLONalso/content".toList =
        sentinelFile sampleTypes (toPath sampleTypes ".".toList "/test//this:also".toList) ∧
      (store sampleTypes sampleRejected emptyFs ".".toList "/test//this:also".toList
        "escaped".toList).2.ReadFile "test/thisESC_COLONalso/content".toList =
        .ok "escaped".toList :=
  store_writes_value sampleTypes sampleRejected emptyFs ".".toList
    "/test//this:also".toList "escaped".toList "test/thisESC_COLONalso/content".toList
    (by decide)

/-- The root key of the test table: the value is stored in the sentinel file of
the base directory itself. -/
theorem store_root_key :
    (store sampleTypes sampleRejected emptyFs ".".toList "/".toList "root".toList).1 =
        ("content".toList, none) ∧
      (store sampleTypes sampleRejected emptyFs ".".toList "/".toList
        "root".toList).2.ReadFile "content".toList = .ok "root".toList :=
  ⟨by decide, rfl⟩

end Reshifter
